import Mathlib

/-!
Verification development for the protoboard tactical-combat core.

Shallow embedding of the Rust sources under src/: the data model
(factions, terrain, units, the grid with its flat tile storage), the
attack-range enumerators (Melee / Ranged / Spear), the movement
path-finder, combat damage, tile capture, and faction rotation.

Conventions used throughout:
* Rust `u32` values are embedded as `Nat`; `i32` values as `Int`.
  `u32::saturating_add` is kept explicit (`satAdd`).
* A Rust function that can panic (a failed `assert!`, an out-of-bounds
  index, `unreachable!()`) is embedded as an `Option`-returning function,
  `none` standing for the abort.  Where a function also has a meaningful
  `Option` result of its own, the layers are nested and commented.
* Rust iterators are embedded as fuel-indexed state walkers that collect
  the whole yielded sequence; every such walker comes with an explicitly
  computed fuel that is proved sufficient.
-/

namespace Protoboard

/-- Factions of the game (src/src/grid_manager.rs renders exactly Red and Blue). -/
inductive Faction
  | red
  | blue
deriving DecidableEq, Repr

/-- Terrain kinds matched on by `Unit::terrain_cost` (src/src/unit.rs:44-49). -/
inductive Terrain
  | grass
  | mountain
deriving DecidableEq, Repr

/-- Attack kinds (src/src/unit.rs:194-204). -/
inductive AttackType
  | melee
  | ranged (min max : Nat)
  | spear (range : Nat)
deriving DecidableEq, Repr

/-- Unit template (src/src/unit.rs:118-124, texture omitted: rendering only). -/
structure UnitType where
  health : Nat
  attack : AttackType
  damage : Nat
  movement : Nat
deriving DecidableEq, Repr

/-- A unit on the board (src/src/unit.rs:11-17). -/
structure Unit where
  health : Nat
  faction : Faction
  spent : Bool
  unitType : UnitType
deriving DecidableEq, Repr

/-- Largest value of a `u32`. -/
def u32Max : Nat := 2 ^ 32 - 1

/-- Rust `u32::saturating_add`. -/
def satAdd (a b : Nat) : Nat := min (a + b) u32Max

/-- Embedding of `Unit::receive_attack` (src/src/unit.rs:21-29): damages
`self` by the attacker's damage stat and reports destruction.  Returns the
updated unit together with the returned boolean. -/
def Unit.receive_attack (self : Unit) (attacker : Unit) : Unit × Bool :=
  if attacker.unitType.damage ≥ self.health then
    ({ self with health := 0 }, true)
  else
    ({ self with health := self.health - attacker.unitType.damage }, false)

/-- Entry cost per terrain (`Unit::terrain_cost`, src/src/unit.rs:44-49). -/
def Unit.terrain_cost (_self : Unit) (t : Terrain) : Nat :=
  match t with
  | .grass => 1
  | .mountain => 3

/- ## The grid (src/src/grid.rs)

Flat slot storage addressed by `y * w + x`; every access is
bounds-checked by `Grid::index` (src/src/grid.rs:182-187). -/

/-- Embedding of `Grid` (src/src/grid.rs:21-25). -/
structure Grid where
  size : Nat × Nat
  units : List (Option Unit)
  terrain : List Terrain
deriving DecidableEq, Repr

/-- A grid is well formed when its flat arrays have exactly `w * h` slots;
`Grid::new` and the level loader only ever build such grids. -/
def Grid.WF (g : Grid) : Prop :=
  g.units.length = g.size.1 * g.size.2 ∧ g.terrain.length = g.size.1 * g.size.2

instance (g : Grid) : Decidable g.WF := by unfold Grid.WF; infer_instance

/-- Embedding of `Grid::index` (src/src/grid.rs:182-187); `none` models the
failed bounds assert. -/
def Grid.index (g : Grid) (pos : Nat × Nat) : Option Nat :=
  if pos.1 < g.size.1 ∧ pos.2 < g.size.2 then
    some (pos.2 * g.size.1 + pos.1)
  else
    none

/-- Embedding of `Grid::tile` (src/src/grid.rs:89-92); `none` models a panic
(bounds assert or slot lookup on a malformed grid). -/
def Grid.tile (g : Grid) (pos : Nat × Nat) : Option (Option Unit × Terrain) :=
  (g.index pos).bind fun i =>
    match g.units.get? i, g.terrain.get? i with
    | some u, some t => some (u, t)
    | _, _ => none

/-- Embedding of `Grid::unit` (src/src/grid.rs:111-113); outer `none` models
a panic, the inner option is the tile's occupant. -/
def Grid.unit (g : Grid) (pos : Nat × Nat) : Option (Option Unit) :=
  (g.tile pos).map Prod.fst

/-- Embedding of `Grid::add_unit` (src/src/grid.rs:121-125); `none` models a
panic: the bounds assert or the `assert!(slot.is_none())` on an occupied
tile. -/
def Grid.add_unit (g : Grid) (u : Unit) (pos : Nat × Nat) : Option Grid :=
  (g.index pos).bind fun i =>
    match g.units.get? i with
    | some none => some { g with units := g.units.set i (some u) }
    | _ => none

/-- Embedding of `Grid::remove_unit` (src/src/grid.rs:127-131); `none` models
a panic: the bounds assert or the `assert!(slot.is_some())` on an empty
tile.  Note the Rust function returns `()` — the removed unit is discarded,
so the embedding can only return the updated grid. -/
def Grid.remove_unit (g : Grid) (pos : Nat × Nat) : Option Grid :=
  (g.index pos).bind fun i =>
    match g.units.get? i with
    | some (some _) => some { g with units := g.units.set i none }
    | _ => none

/-- Embedding of `Grid::unit_pair_mut` (src/src/grid.rs:147-170).  The outer
option models a panic (`rest[i]` out of bounds, or a bounds assert in
`index`); the next layer is the Rust `Option` result (`none` iff `a == b`
or the sliced prefix is empty); the payload is the pair of slot contents
the Rust code hands back: `rest[i]` and the last element of
`units[..j]`. -/
def Grid.unit_pair_mut (g : Grid) (a b : Nat × Nat) :
    Option (Option (Option Unit × Option Unit)) :=
  if a = b then
    some none
  else
    (g.index a).bind fun ia =>
      (g.index b).bind fun ib =>
        let i := if ia < ib then ia else ib
        let j := if ia < ib then ib else ia
        let tk := g.units.take j
        match tk.getLast? with
        | none => some none
        | some last =>
          match tk.dropLast.get? i with
          | none => none
          | some first => some (some (first, last))

/- ## Tiles and capture (src/src/tile.rs) -/

/-- Terrain data as used by src/src/tile.rs (`info::Terrain`): only the
`capture` threshold field is relevant here; `0` means not capturable. -/
structure TerrainInfo where
  capture : Nat
deriving DecidableEq, Repr

/-- Embedding of `Tile` (src/src/tile.rs:4-9).  The Rust field `capture`
(in-progress capture state) is called `capture_state` here because the
method `Tile::capture` keeps the source name. -/
structure Tile where
  terrain : TerrainInfo
  faction : Option Faction
  capture_state : Option (Faction × Nat)
deriving DecidableEq, Repr

/-- Embedding of `Tile::can_be_captured` (src/src/tile.rs:13-15). -/
def Tile.can_be_captured (t : Tile) : Bool :=
  t.terrain.capture ≠ 0

/-- Embedding of `Tile::capture` (src/src/tile.rs:18-34).  `none` models the
`assert_eq!(prev_faction, faction)` failure when a different faction is
already mid-capture; otherwise returns the updated tile and whether
ownership flipped. -/
def Tile.capture (t : Tile) (faction : Faction) (capture : Nat) :
    Option (Tile × Bool) :=
  let value? : Option Nat :=
    match t.capture_state with
    | none => some capture
    | some (prev_faction, prev_value) =>
      if prev_faction = faction then some (satAdd prev_value capture) else none
  value?.map fun value =>
    if value ≥ t.terrain.capture then
      ({ t with faction := some faction, capture_state := none }, true)
    else
      ({ t with capture_state := some (faction, value) }, false)

/-- Modelled from the spec: the `capture_at` action handler (dispatched from
`CaptureSelected` in src/src/scene.rs:99) is not under src/.  Per spec
§4.4, a unit with capture capacity > 0 on a capturable, non-owned tile
accrues `floor(capacity * health / 10)` progress per action, progress by a
different faction is reset when a new faction starts capturing, and the
accumulation itself is `Tile::capture` above. -/
def capture_at (t : Tile) (f : Faction) (capacity health : Nat) :
    Option (Tile × Bool) :=
  if 0 < capacity ∧ t.can_be_captured ∧ t.faction ≠ some f then
    let t1 : Tile :=
      match t.capture_state with
      | some (g, _) => if g = f then t else { t with capture_state := none }
      | none => t
    t1.capture f (capacity * health / 10)
  else
    some (t, false)

/- ## Turn rotation (src/src/common.rs:287-337) -/

/-- Embedding of `TurnInfo` (src/src/common.rs:288-293). -/
structure TurnInfo where
  factions : List Faction
  current : Nat
  actions_left : Nat
  max_actions_left : Nat
deriving DecidableEq, Repr

/-- Index of the last occurrence of `f`, as computed by
`self.factions.iter().rposition(|&x| x == f)`. -/
def rposition : List Faction → Faction → Option Nat
  | [], _ => none
  | a :: as_, f =>
    match rposition as_ f with
    | some i => some (i + 1)
    | none => if a = f then some 0 else none

/-- One-loop-per-fuel embedding of the `while let` loop of
`TurnInfo::remove_faction` (src/src/common.rs:319-326).  Each pass removes
the last occurrence of `f` and corrects `current` exactly as the Rust code
does.  `none` models the panic of `(current + len - 1) % len` when the
faction list becomes empty (`usize` underflow / division by zero); the
fuel (number of list elements) is proved sufficient where used. -/
def remove_faction_go (f : Faction) :
    Nat → List Faction → Nat → Option (List Faction × Nat)
  | fuel, fs, cur =>
    match rposition fs f with
    | none => some (fs, cur)
    | some i =>
      match fuel with
      | 0 => none
      | fuel' + 1 =>
        let fs2 := fs.eraseIdx i
        if cur ≥ i then
          if fs2.length = 0 then
            none
          else
            remove_faction_go f fuel' fs2 ((cur + fs2.length - 1) % fs2.length)
        else
          remove_faction_go f fuel' fs2 cur

/-- Embedding of `TurnInfo::remove_faction` (src/src/common.rs:319-326). -/
def TurnInfo.remove_faction (t : TurnInfo) (f : Faction) : Option TurnInfo :=
  (remove_faction_go f t.factions.length t.factions t.current).map fun r =>
    { t with factions := r.1, current := r.2 }

/-- Embedding of `TurnInfo::current_faction` (src/src/common.rs:314-316);
`none` models the panic of an out-of-range index. -/
def TurnInfo.current_faction (t : TurnInfo) : Option Faction :=
  t.factions.get? t.current

/- ## Sample data used by concrete theorems -/

/-- A melee unit template used for concrete scenarios. -/
def ut0 : UnitType := { health := 10, attack := .melee, damage := 5, movement := 2 }

/-- A red sample unit. -/
def uR : Unit := { health := 10, faction := .red, spent := false, unitType := ut0 }

/-- A blue sample unit. -/
def uB : Unit := { health := 10, faction := .blue, spent := false, unitType := ut0 }

/-- A 3×1 grass grid with a red unit at (0,0) and a blue unit at (2,0). -/
def g6 : Grid :=
  { size := (3, 1), units := [some uR, none, some uB],
    terrain := [.grass, .grass, .grass] }

/-- A capturable tile (threshold 20) owned by red, with red capture progress 15. -/
def tileA : Tile :=
  { terrain := { capture := 20 }, faction := some .red,
    capture_state := some (.red, 15) }

/- ## Claims about capture, turn rotation, combat and grid mutation -/

/-- Progress value a capture action accumulates: prior progress continues
for the in-progress faction, while a different faction restarts from its
own contribution alone. -/
def capture_value (t : Tile) (f : Faction) (amount : Nat) : Nat :=
  match t.capture_state with
  | some (g, v) => if g = f then satAdd v amount else amount
  | none => amount

/-- Result a capture action must produce according to the claim: the
accumulated progress follows `capture_value` (reset on faction change),
ownership transfers to the capturer exactly when it reaches the tile's
threshold — clearing the in-progress state — and is recorded against the
capturer otherwise. -/
def capture_expected (t : Tile) (f : Faction) (amount : Nat) : Tile × Bool :=
  let value := capture_value t f amount
  if value ≥ t.terrain.capture then
    ({ t with faction := some f, capture_state := none }, true)
  else
    ({ t with capture_state := some (f, value) }, false)

/-- C5: for every capturable tile not owned by the capturing faction and
every capture action with positive capacity, the capture step succeeds and
behaves exactly as claimed: progress restarts from the new faction's
contribution when the capturing faction changes, and ownership transfers
exactly when accumulated progress reaches the threshold, after which the
in-progress state is cleared. -/
theorem capture_resets_and_flips_at_threshold (t : Tile) (f : Faction)
    (capacity health : Nat) (hthr : t.terrain.capture ≠ 0) (hcap : 0 < capacity)
    (hown : t.faction ≠ some f) :
    capture_at t f capacity health = some (capture_expected t f (capacity * health / 10)) := by
  obtain ⟨ter, fac, cs⟩ := t
  have hcb : (Tile.mk ter fac cs).can_be_captured = true := by
    simp only [Tile.can_be_captured, decide_eq_true_eq]
    exact hthr
  unfold capture_at capture_expected capture_value
  rw [if_pos ⟨hcap, hcb, hown⟩]
  rcases cs with _ | ⟨g, v⟩
  · rfl
  · cases g <;> cases f <;> rfl

/-- Witness for C5: blue starts capturing a red-held tile with red progress
15; progress restarts from blue's contribution of 20 and, meeting the
threshold 20, ownership flips to blue and the capture state clears. -/
theorem capture_resets_and_flips_at_threshold_witness :
    (tileA.terrain.capture ≠ 0 ∧ 0 < 2 ∧ tileA.faction ≠ some .blue) ∧
      capture_at tileA .blue 2 100 = some (capture_expected tileA .blue (2 * 100 / 10)) ∧
      capture_expected tileA .blue (2 * 100 / 10) =
        ({ tileA with faction := some .blue, capture_state := none }, true) :=
  ⟨⟨by decide, by decide, by decide⟩,
    capture_resets_and_flips_at_threshold tileA .blue 2 100 (by decide) (by decide) (by decide),
    by decide⟩

/-- C6 (code bug evidence): on the 3×1 grid `g6` with units at (0,0) and
(2,0), `unit_pair_mut((0,0),(2,0))` hands back the slot of tile (1,0)
(empty) instead of the occupied tile (2,0), and for the adjacent pair
`unit_pair_mut((0,0),(1,0))` it panics (`rest[i]` is out of bounds),
although the claim requires the units of exactly the two queried tiles. -/
theorem unit_pair_mut_returns_wrong_second_slot :
    g6.unit (2, 0) = some (some uB) ∧
    g6.unit_pair_mut (0, 0) (2, 0) = some (some (some uR, none)) ∧
    g6.unit_pair_mut (0, 0) (1, 0) = none := by
  refine ⟨rfl, rfl, rfl⟩

/-- C7: from factions [Red, Blue] with current = Red, removing Red leaves
exactly [Blue] and the current faction is Blue. -/
theorem remove_faction_red_blue_scenario (a m : Nat) :
    TurnInfo.remove_faction ⟨[.red, .blue], 0, a, m⟩ .red = some ⟨[.blue], 0, a, m⟩ ∧
    (TurnInfo.remove_faction ⟨[.red, .blue], 0, a, m⟩ .red).bind TurnInfo.current_faction =
      some .blue := by
  exact ⟨rfl, rfl⟩

/-- C8: receiving an attack clamps health at `max 0 (health - damage)` and
the returned flag is true exactly when the resulting health is zero. -/
theorem receive_attack_clamps_and_reports_destruction (self attacker : Unit) :
    (((self.receive_attack attacker).1.health : Int) =
      max 0 ((self.health : Int) - (attacker.unitType.damage : Int))) ∧
    ((self.receive_attack attacker).2 = true ↔ (self.receive_attack attacker).1.health = 0) := by
  unfold Unit.receive_attack
  by_cases h : attacker.unitType.damage ≥ self.health <;> simp [h] <;> omega

/-- C9 (code bug evidence): `add_unit` aborts on an occupied tile and
`remove_unit` aborts on an empty tile, as claimed; but `remove_unit` only
returns the updated grid — the removed unit is discarded, not returned
(its in-repo callers such as grid_manager.rs:105 bind a returned unit). -/
theorem remove_unit_discards_removed_unit :
    g6.add_unit uB (0, 0) = none ∧
    g6.remove_unit (1, 0) = none ∧
    g6.add_unit uB (1, 0) = some { g6 with units := [some uR, some uB, some uB] } ∧
    g6.remove_unit (0, 0) = some { g6 with units := [none, none, some uB] } := by
  refine ⟨rfl, rfl, rfl, rfl⟩

/- ## Ranged attack-range enumeration

`Ranged::next` (src/src/attack_range.rs:115-148) and `TilesInRange::next`
(src/src/unit.rs:159-192) run the same ring walk: the state `cur` starts
at `(0, max)`, follows an 8-direction turning rule inward and stops when
it reaches the sentinel `(0, min - 1)`; every in-bounds visited offset is
yielded. -/

/-- Outcome of running an embedded iterator to exhaustion. -/
inductive RunResult
  | panic
  | fuelOut
  | ok (l : List (Nat × Nat))
deriving DecidableEq, Repr

/-- Prepend a yielded tile to the result of the rest of a run. -/
def RunResult.consOk (q : Nat × Nat) : RunResult → RunResult
  | .ok l => .ok (q :: l)
  | r => r

/-- The turning rule on `cur` shared by `Ranged::next`
(src/src/attack_range.rs:127-140) and `TilesInRange::next`
(src/src/unit.rs:171-184), matching on the pair of signums; `none` models
the `unreachable!()` arm. -/
def ring_step (c : Int × Int) : Option (Int × Int) :=
  let dx := c.1
  let dy := c.2
  let s := (dx.sign, dy.sign)
  if s = (0, 1) ∨ s = (1, 1) then some (dx + 1, dy - 1)
  else if s = (1, 0) ∨ s = (1, -1) then some (dx - 1, dy - 1)
  else if s = (0, -1) ∨ s = (-1, -1) then some (dx - 1, dy + 1)
  else if s = (-1, 0) ∨ s = (-1, 1) then
    some (if dx = -1 then (dx + 1, dy) else (dx + 1, dy + 1))
  else none

/-- The bounds check `0 <= nx && nx < w && 0 <= ny && ny < h` on `i32`
coordinates (src/src/attack_range.rs:142, src/src/unit.rs:186). -/
def inBoundsI (size : Nat × Nat) (t : Int × Int) : Bool :=
  decide (0 ≤ t.1 ∧ t.1 < (size.1 : Int) ∧ 0 ≤ t.2 ∧ t.2 < (size.2 : Int))

/-- Fuel-indexed embedding of the ring-walk loop: the whole sequence the
iterator yields across its `next` calls.  Each pass mirrors one iteration
of the Rust `while self.cur != (0, self.min as i32 - 1)` loop: compute the
candidate tile from the current offset, advance `cur` by the turning rule
(panicking on the `unreachable!()` state), and yield the tile when it is
in bounds. -/
def ring_walk (size pos : Nat × Nat) (min : Nat) : Nat → Int × Int → RunResult
  | 0, cur => if cur = (0, (min : Int) - 1) then .ok [] else .fuelOut
  | fuel + 1, cur =>
    if cur = (0, (min : Int) - 1) then .ok []
    else
      match ring_step cur with
      | none => .panic
      | some cur2 =>
        let t : Int × Int := ((pos.1 : Int) + cur.1, (pos.2 : Int) + cur.2)
        let rest := ring_walk size pos min fuel cur2
        if inBoundsI size t then rest.consOk (t.1.toNat, t.2.toNat) else rest

/-- Manhattan ring of an offset. -/
def ringOf (c : Int × Int) : Nat := c.1.natAbs + c.2.natAbs

/-- Position of an offset along the walk around its ring, starting at the
northern tip `(0, R)` and increasing in walk order. -/
def idxOf (c : Int × Int) : Nat :=
  if 0 ≤ c.1 ∧ 0 < c.2 then c.1.natAbs
  else if 0 < c.1 ∧ c.2 ≤ 0 then (c.1.natAbs + c.2.natAbs) + c.2.natAbs
  else if c.1 ≤ 0 ∧ c.2 < 0 then 2 * (c.1.natAbs + c.2.natAbs) + c.1.natAbs
  else 3 * (c.1.natAbs + c.2.natAbs) + c.2.natAbs

/-- Number of turning-rule steps from an offset to the origin state:
`2 R (R + 1)` at each ring's northern tip, decreasing by one per step. -/
def msr (c : Int × Int) : Nat := 2 * ringOf c * (ringOf c + 1) - idxOf c

/-- Run the ring walk to exhaustion from a state, with (provably
sufficient) fuel `msr cur + 1`. -/
def ring_walk_all (size pos : Nat × Nat) (min : Nat) (cur : Int × Int) : RunResult :=
  ring_walk size pos min (msr cur + 1) cur

/-- Embedding of `AttackRange::ranged` (src/src/attack_range.rs:35-44)
followed by draining `Ranged::next`: the full yielded sequence. -/
def ranged_run (g : Grid) (pos : Nat × Nat) (min max : Nat) : RunResult :=
  ring_walk_all g.size pos min (0, (max : Int))

/-- Embedding of the `TilesInRange` iterator state (src/src/unit.rs:151-157). -/
structure TilesInRange where
  pos : Nat × Nat
  cur : Int × Int
  size : Nat × Nat
  min : Nat
deriving DecidableEq, Repr

/-- The full sequence yielded by `TilesInRange::next`
(src/src/unit.rs:159-192) — the same ring walk as `Ranged::next`. -/
def TilesInRange.run_all (t : TilesInRange) : RunResult :=
  ring_walk_all t.size t.pos t.min t.cur

/-- Embedding of `AttackType::tiles_in_range` (src/src/unit.rs:206-219). -/
def AttackType.tiles_in_range (a : AttackType) (pos size : Nat × Nat) : TilesInRange :=
  let mm : Nat × Nat :=
    match a with
    | .melee => (1, 1)
    | .ranged min max => (min, max)
    | .spear range => (1, range)
  { pos := pos, cur := (0, (mm.2 : Int)), size := size, min := mm.1 }

/-- Manhattan distance between two grid positions. -/
def manhattan (a b : Nat × Nat) : Nat :=
  ((a.1 : Int) - b.1).natAbs + ((a.2 : Int) - b.2).natAbs

/- ### Geometry of the turning rule -/

theorem ringOf_mk (a b : Int) : ringOf (a, b) = a.natAbs + b.natAbs := rfl

theorem idxOf_mk (a b : Int) : idxOf (a, b) =
    if 0 ≤ a ∧ 0 < b then a.natAbs
    else if 0 < a ∧ b ≤ 0 then (a.natAbs + b.natAbs) + b.natAbs
    else if a ≤ 0 ∧ b < 0 then 2 * (a.natAbs + b.natAbs) + a.natAbs
    else 3 * (a.natAbs + b.natAbs) + b.natAbs := rfl

theorem ringOf_eq_zero {c : Int × Int} : ringOf c = 0 ↔ c = (0, 0) := by
  obtain ⟨a, b⟩ := c
  simp only [ringOf, Prod.mk.injEq]
  omega

theorem idxOf_lt {c : Int × Int} (hc : c ≠ (0, 0)) : idxOf c < 4 * ringOf c := by
  obtain ⟨a, b⟩ := c
  have hab : ¬(a = 0 ∧ b = 0) := by
    intro h
    exact hc (by simp [Prod.ext_iff, h.1, h.2])
  unfold idxOf ringOf
  split_ifs <;> omega

theorem ring_idx_inj {c d : Int × Int} (hr : ringOf c = ringOf d)
    (hi : idxOf c = idxOf d) : c = d := by
  obtain ⟨a, b⟩ := c
  obtain ⟨e, f⟩ := d
  unfold ringOf at hr
  unfold idxOf at hi
  simp only [Prod.mk.injEq]
  split_ifs at hi <;> omega

theorem idxOf_north (n : Nat) : idxOf (0, (n : Int)) = 0 := by
  unfold idxOf
  split_ifs <;> simp_all <;> omega

/-- Off the origin state, the turning rule takes one step forward: either
to the next offset of the same ring, or — from the last offset of a ring —
to the northern tip of the next ring in. -/
theorem ring_step_spec (c : Int × Int) (hc : c ≠ (0, 0)) :
    ∃ c2, ring_step c = some c2 ∧
      ((ringOf c2 = ringOf c ∧ idxOf c2 = idxOf c + 1) ∨
       (idxOf c = 4 * ringOf c - 1 ∧ c2 = (0, (ringOf c : Int) - 1))) := by
  obtain ⟨a, b⟩ := c
  have hab : ¬(a = 0 ∧ b = 0) := by
    intro h
    exact hc (by simp [Prod.ext_iff, h.1, h.2])
  rcases lt_trichotomy a 0 with hx | hx | hx <;> rcases lt_trichotomy b 0 with hy | hy | hy
  · -- a < 0, b < 0: S-W edge
    have sx : a.sign = -1 := Int.sign_eq_neg_one_iff_neg.mpr hx
    have sy : b.sign = -1 := Int.sign_eq_neg_one_iff_neg.mpr hy
    refine ⟨(a - 1, b + 1), by simp [ring_step, sx, sy], Or.inl ?_⟩
    constructor
    · unfold ringOf; omega
    · unfold idxOf; split_ifs <;> omega
  · -- a < 0, b = 0: W tip
    subst hy
    have sx : a.sign = -1 := Int.sign_eq_neg_one_iff_neg.mpr hx
    by_cases ha : a = -1
    · subst ha
      exact ⟨(0, 0), by simp [ring_step, sx], Or.inr (by decide)⟩
    · refine ⟨(a + 1, 1), by simp [ring_step, sx, ha], Or.inl ?_⟩
      constructor
      · unfold ringOf; omega
      · unfold idxOf; split_ifs <;> omega
  · -- a < 0, b > 0: W-N edge
    have sx : a.sign = -1 := Int.sign_eq_neg_one_iff_neg.mpr hx
    have sy : b.sign = 1 := Int.sign_eq_one_iff_pos.mpr hy
    by_cases ha : a = -1
    · subst ha
      refine ⟨(0, b), by simp [ring_step, sx, sy], Or.inr ?_⟩
      constructor
      · simp only [idxOf_mk, ringOf_mk]
        split_ifs <;> omega
      · simp only [ringOf_mk, Prod.mk.injEq, true_and]
        omega
    · refine ⟨(a + 1, b + 1), by simp [ring_step, sx, sy, ha], Or.inl ?_⟩
      constructor
      · unfold ringOf; omega
      · unfold idxOf; split_ifs <;> omega
  · -- a = 0, b < 0: S tip
    subst hx
    have sy : b.sign = -1 := Int.sign_eq_neg_one_iff_neg.mpr hy
    refine ⟨(-1, b + 1), by simp [ring_step, sy], Or.inl ?_⟩
    constructor
    · unfold ringOf; omega
    · unfold idxOf; split_ifs <;> omega
  · exact absurd ⟨hx, hy⟩ hab
  · -- a = 0, b > 0: N tip
    subst hx
    have sy : b.sign = 1 := Int.sign_eq_one_iff_pos.mpr hy
    refine ⟨(1, b - 1), by simp [ring_step, sy], Or.inl ?_⟩
    constructor
    · unfold ringOf; omega
    · unfold idxOf; split_ifs <;> omega
  · -- a > 0, b < 0: E-S edge
    have sx : a.sign = 1 := Int.sign_eq_one_iff_pos.mpr hx
    have sy : b.sign = -1 := Int.sign_eq_neg_one_iff_neg.mpr hy
    refine ⟨(a - 1, b - 1), by simp [ring_step, sx, sy], Or.inl ?_⟩
    constructor
    · unfold ringOf; omega
    · unfold idxOf; split_ifs <;> omega
  · -- a > 0, b = 0: E tip
    subst hy
    have sx : a.sign = 1 := Int.sign_eq_one_iff_pos.mpr hx
    refine ⟨(a - 1, -1), by simp [ring_step, sx], Or.inl ?_⟩
    constructor
    · unfold ringOf; omega
    · unfold idxOf; split_ifs <;> omega
  · -- a > 0, b > 0: N-E edge
    have sx : a.sign = 1 := Int.sign_eq_one_iff_pos.mpr hx
    have sy : b.sign = 1 := Int.sign_eq_one_iff_pos.mpr hy
    refine ⟨(a + 1, b - 1), by simp [ring_step, sx, sy], Or.inl ?_⟩
    constructor
    · unfold ringOf; omega
    · unfold idxOf; split_ifs <;> omega

/-- The walk measure strictly decreases along the turning rule. -/
theorem msr_step {c c2 : Int × Int} (hc : c ≠ (0, 0)) (h : ring_step c = some c2) :
    msr c2 < msr c := by
  obtain ⟨d, hstep, hd⟩ := ring_step_spec c hc
  rw [hstep] at h
  obtain rfl : d = c2 := Option.some.inj h
  have hR : 1 ≤ ringOf c := by
    rcases Nat.eq_zero_or_pos (ringOf c) with h0 | h1
    · exact absurd (ringOf_eq_zero.mp h0) hc
    · exact h1
  have hlt := idxOf_lt hc
  rcases hd with ⟨hr, hi⟩ | ⟨hi, rfl⟩
  · unfold msr
    rw [hr, hi]
    have hle : 4 * ringOf c ≤ 2 * ringOf c * (ringOf c + 1) := by nlinarith
    set T := 2 * ringOf c * (ringOf c + 1) with hT
    omega
  · unfold msr
    obtain ⟨S, hS⟩ : ∃ S, ringOf c = S + 1 := ⟨ringOf c - 1, by omega⟩
    have hring2 : ringOf ((0 : Int), (ringOf c : Int) - 1) = S := by
      simp only [ringOf_mk]
      omega
    have hidx2 : idxOf ((0 : Int), (ringOf c : Int) - 1) = 0 := by
      simp only [idxOf_mk]
      split_ifs <;> omega
    rw [hring2, hidx2, hi, hS]
    have e : 2 * (S + 1) * (S + 1 + 1) = 2 * S * (S + 1) + 4 * (S + 1) := by ring
    set T := 2 * S * (S + 1) with hT
    omega

/-- The offsets still to be visited when the walk (ending at the sentinel
ring `min`) stands at `cur`: everything on rings between `min` and the
ring of `cur`, and not strictly before `cur` on the ring of `cur`. -/
def visGE (min : Nat) (cur off : Int × Int) : Prop :=
  min ≤ ringOf off ∧ ringOf off ≤ ringOf cur ∧
    (ringOf off = ringOf cur → idxOf cur ≤ idxOf off)

theorem inBoundsI_iff {size : Nat × Nat} {t : Int × Int} :
    inBoundsI size t = true ↔
      0 ≤ t.1 ∧ t.1 < (size.1 : Int) ∧ 0 ≤ t.2 ∧ t.2 < (size.2 : Int) := by
  simp [inBoundsI]

/-- How the to-visit set changes across one turning-rule step: it loses
exactly the current offset. -/
theorem visGE_step {min : Nat} {cur c2 : Int × Int} (hmin : 1 ≤ min)
    (hrcur : min ≤ ringOf cur) (hc0 : cur ≠ (0, 0))
    (hdisj : (ringOf c2 = ringOf cur ∧ idxOf c2 = idxOf cur + 1) ∨
      (idxOf cur = 4 * ringOf cur - 1 ∧ c2 = (0, (ringOf cur : Int) - 1))) :
    (∀ off, visGE min c2 off → visGE min cur off) ∧
    (∀ off, visGE min cur off → off = cur ∨ visGE min c2 off) ∧
    ¬ visGE min c2 cur := by
  have hlt := idxOf_lt hc0
  rcases hdisj with ⟨hr, hi⟩ | ⟨hi, rfl⟩
  · refine ⟨?_, ?_, ?_⟩
    · rintro off ⟨o1, o2, o3⟩
      refine ⟨o1, by omega, fun he => ?_⟩
      have := o3 (by omega)
      omega
    · rintro off ⟨o1, o2, o3⟩
      by_cases hoff : off = cur
      · exact Or.inl hoff
      right
      refine ⟨o1, by omega, fun he => ?_⟩
      have h3 := o3 (by omega)
      have h4 : idxOf off ≠ idxOf cur := fun h => hoff (ring_idx_inj (by omega) h)
      omega
    · rintro ⟨o1, o2, o3⟩
      have := o3 (by omega)
      omega
  · have hR : 1 ≤ ringOf cur := le_trans hmin hrcur
    have hring2 : ringOf ((0 : Int), (ringOf cur : Int) - 1) = ringOf cur - 1 := by
      simp only [ringOf_mk]
      omega
    have hidx2 : idxOf ((0 : Int), (ringOf cur : Int) - 1) = 0 := by
      simp only [idxOf_mk]
      split_ifs <;> omega
    refine ⟨?_, ?_, ?_⟩
    · rintro off ⟨o1, o2, o3⟩
      exact ⟨o1, by omega, fun he => by omega⟩
    · rintro off ⟨o1, o2, o3⟩
      by_cases he : ringOf off = ringOf cur
      · left
        have h3 := o3 he
        have hoffne : off ≠ (0, 0) := by
          intro h
          rw [h] at o1
          rw [show ringOf ((0 : Int), (0 : Int)) = 0 from rfl] at o1
          omega
        have h4 := idxOf_lt hoffne
        exact ring_idx_inj (by omega) (by omega)
      · right
        refine ⟨o1, by omega, fun hee => ?_⟩
        rw [hidx2]
        exact Nat.zero_le _
    · rintro ⟨o1, o2, o3⟩
      omega

/-- Recover the two coordinate equations from equal emitted tiles. -/
theorem toNat_pair_inj {x y u v : Int} (hx : 0 ≤ x) (hy : 0 ≤ y) (hu : 0 ≤ u)
    (hv : 0 ≤ v) (h : (x.toNat, y.toNat) = (u.toNat, v.toNat)) : x = u ∧ y = v := by
  simp only [Prod.mk.injEq] at h
  omega

/-- Main characterization of the ring walk: started anywhere on a ring
between `min ≥ 1` and the outside (or at the sentinel), with enough fuel,
it completes and yields exactly the in-bounds tiles at the still-to-visit
offsets, each exactly once. -/
theorem ring_walk_spec (size pos : Nat × Nat) (min : Nat) (hmin : 1 ≤ min) :
    ∀ fuel cur, msr cur < fuel →
    (min ≤ ringOf cur ∨ cur = (0, (min : Int) - 1)) →
    ∃ L, ring_walk size pos min fuel cur = .ok L ∧ L.Nodup ∧
      ∀ q : Nat × Nat, q ∈ L ↔ ∃ off : Int × Int, visGE min cur off ∧
        inBoundsI size ((pos.1 : Int) + off.1, (pos.2 : Int) + off.2) = true ∧
        q = (((pos.1 : Int) + off.1).toNat, ((pos.2 : Int) + off.2).toNat) := by
  intro fuel
  induction fuel with
  | zero => exact fun cur hf _ => absurd hf (Nat.not_lt_zero _)
  | succ fuel ih =>
    intro cur hf hv
    by_cases hsent : cur = (0, (min : Int) - 1)
    · subst hsent
      refine ⟨[], by simp [ring_walk], List.nodup_nil, fun q => ?_⟩
      simp only [List.not_mem_nil, false_iff]
      rintro ⟨off, ⟨o1, o2, _⟩, _, _⟩
      have hring : ringOf ((0 : Int), (min : Int) - 1) = min - 1 := by
        simp only [ringOf_mk]
        omega
      omega
    · have hrcur : min ≤ ringOf cur := by
        rcases hv with h | h
        · exact h
        · exact absurd h hsent
      have hc0 : cur ≠ (0, 0) := by
        intro h
        rw [h, show ringOf ((0 : Int), (0 : Int)) = 0 from rfl] at hrcur
        omega
      obtain ⟨c2, hstep, hdisj⟩ := ring_step_spec cur hc0
      have hmsr := msr_step hc0 hstep
      have hv2 : min ≤ ringOf c2 ∨ c2 = (0, (min : Int) - 1) := by
        rcases hdisj with ⟨hr, _⟩ | ⟨_, hc2⟩
        · exact Or.inl (by omega)
        · subst hc2
          have h1 : ringOf ((0 : Int), (ringOf cur : Int) - 1) = ringOf cur - 1 := by
            simp only [ringOf_mk]
            omega
          by_cases hr2 : min ≤ ringOf cur - 1
          · exact Or.inl (by omega)
          · right
            have he : ringOf cur = min := by omega
            rw [he]
      obtain ⟨L2, hrun2, hnd2, hmem2⟩ := ih c2 (by omega) hv2
      obtain ⟨hS1, hS2, hS3⟩ := visGE_step hmin hrcur hc0 hdisj
      have hvrefl : visGE min cur cur := ⟨hrcur, le_refl _, fun _ => le_refl _⟩
      have hunf : ring_walk size pos min (fuel + 1) cur =
          (if inBoundsI size ((pos.1 : Int) + cur.1, (pos.2 : Int) + cur.2) = true then
            RunResult.ok ((((pos.1 : Int) + cur.1).toNat, ((pos.2 : Int) + cur.2).toNat) :: L2)
          else RunResult.ok L2) := by
        simp only [ring_walk, if_neg hsent, hstep, hrun2]
        split <;> rfl
      by_cases hin :
          inBoundsI size ((pos.1 : Int) + cur.1, (pos.2 : Int) + cur.2) = true
      · rw [if_pos hin] at hunf
        refine ⟨_, hunf, ?_, fun q => ?_⟩
        · refine List.nodup_cons.mpr ⟨fun hmem => ?_, hnd2⟩
          obtain ⟨off, hvg, hinB, heq⟩ := (hmem2 _).mp hmem
          obtain ⟨e1, e2, e3, e4⟩ := inBoundsI_iff.mp hin
          obtain ⟨f1, f2, f3, f4⟩ := inBoundsI_iff.mp hinB
          obtain ⟨hx, hy⟩ := toNat_pair_inj e1 e3 f1 f3 heq
          have hoc : off = cur := by
            obtain ⟨a, b⟩ := off
            obtain ⟨x, y⟩ := cur
            simp only [Prod.mk.injEq] at hx hy ⊢
            constructor <;> omega
          rw [hoc] at hvg
          exact hS3 hvg
        · rw [List.mem_cons, hmem2 q]
          constructor
          · rintro (rfl | ⟨off, hvg, hinB, heq⟩)
            · exact ⟨cur, hvrefl, hin, rfl⟩
            · exact ⟨off, hS1 off hvg, hinB, heq⟩
          · rintro ⟨off, hvg, hinB, heq⟩
            rcases hS2 off hvg with rfl | hvg2
            · exact Or.inl heq
            · exact Or.inr ⟨off, hvg2, hinB, heq⟩
      · rw [if_neg hin] at hunf
        refine ⟨_, hunf, hnd2, fun q => ?_⟩
        rw [hmem2 q]
        constructor
        · rintro ⟨off, hvg, hinB, heq⟩
          exact ⟨off, hS1 off hvg, hinB, heq⟩
        · rintro ⟨off, hvg, hinB, heq⟩
          rcases hS2 off hvg with rfl | hvg2
          · exact absurd hinB hin
          · exact ⟨off, hvg2, hinB, heq⟩

/-- The ring walk started at `(0, max)` with sentinel ring `min` yields
exactly the in-bounds tiles of the Manhattan annulus `min ≤ d ≤ max`,
each exactly once. -/
theorem ring_walk_all_annulus (size pos : Nat × Nat) (min max : Nat)
    (h1 : 1 ≤ min) (h2 : min ≤ max) :
    ∃ L, ring_walk_all size pos min (0, (max : Int)) = .ok L ∧ L.Nodup ∧
      ∀ q : Nat × Nat, q ∈ L ↔
        (q.1 < size.1 ∧ q.2 < size.2 ∧
          min ≤ manhattan pos q ∧ manhattan pos q ≤ max) := by
  have hringmax : ringOf ((0 : Int), (max : Int)) = max := by
    simp only [ringOf_mk]
    omega
  obtain ⟨L, hrun, hnd, hmem⟩ :=
    ring_walk_spec size pos min h1 (msr (0, (max : Int)) + 1) (0, (max : Int))
      (Nat.lt_succ_self _) (Or.inl (by omega))
  refine ⟨L, hrun, hnd, fun q => ?_⟩
  rw [hmem q]
  constructor
  · rintro ⟨⟨a, b⟩, ⟨o1, o2, _⟩, hinB, heq⟩
    obtain ⟨e1, e2, e3, e4⟩ := inBoundsI_iff.mp hinB
    rw [ringOf_mk] at o1 o2
    rw [hringmax] at o2
    subst heq
    obtain ⟨q1, q2⟩ := pos
    simp only at e1 e2 e3 e4 ⊢
    refine ⟨by omega, by omega, ?_, ?_⟩ <;> (simp only [manhattan]; omega)
  · rintro ⟨hqw, hqh, hd1, hd2⟩
    obtain ⟨q1, q2⟩ := q
    obtain ⟨p1, p2⟩ := pos
    simp only [manhattan] at hd1 hd2
    refine ⟨((q1 : Int) - p1, (q2 : Int) - p2), ⟨?_, ?_, fun _ => ?_⟩, ?_, ?_⟩
    · rw [ringOf_mk]
      omega
    · rw [ringOf_mk, hringmax]
      omega
    · rw [idxOf_north]
      exact Nat.zero_le _
    · refine inBoundsI_iff.mpr ⟨?_, ?_, ?_, ?_⟩ <;> (simp only []; omega)
    · simp only [Prod.mk.injEq]
      constructor <;> omega

/-- C1 (amended to `1 ≤ min ≤ max`): the Ranged(min, max) enumeration
completes without panicking and yields exactly the set of in-bounds tiles
whose Manhattan distance d from the origin satisfies `min ≤ d ≤ max`,
each such tile exactly once. -/
theorem ranged_enumerates_annulus (g : Grid) (pos : Nat × Nat) (min max : Nat)
    (h1 : 1 ≤ min) (h2 : min ≤ max) :
    ∃ L, ranged_run g pos min max = .ok L ∧ L.Nodup ∧
      ∀ q : Nat × Nat, q ∈ L ↔
        (q.1 < g.size.1 ∧ q.2 < g.size.2 ∧
          min ≤ manhattan pos q ∧ manhattan pos q ≤ max) :=
  ring_walk_all_annulus g.size pos min max h1 h2

/-- A 3×3 all-grass empty grid. -/
def g33 : Grid :=
  { size := (3, 3), units := List.replicate 9 none,
    terrain := List.replicate 9 .grass }

/-- Witness for C1: on the 3×3 grid from (1,1) with min = 1, max = 2. -/
theorem ranged_enumerates_annulus_witness :
    (1 ≤ 1 ∧ 1 ≤ 2) ∧
      ∃ L, ranged_run g33 (1, 1) 1 2 = .ok L ∧ L.Nodup ∧
        ∀ q : Nat × Nat, q ∈ L ↔
          (q.1 < g33.size.1 ∧ q.2 < g33.size.2 ∧
            1 ≤ manhattan (1, 1) q ∧ manhattan (1, 1) q ≤ 2) :=
  ⟨⟨by decide, by decide⟩,
    ranged_enumerates_annulus g33 (1, 1) 1 2 (by decide) (by decide)⟩

/-- C1 counterexample: for min = 0 ≤ max = 0 the claim demands the
enumeration yield exactly the origin tile (the only tile at distance 0),
but `Ranged::next` hits its `unreachable!()` arm and panics without
yielding anything. -/
theorem ranged_min_zero_panics :
    ranged_run g6 (1, 0) 0 0 = .panic ∧
    (1 < g6.size.1 ∧ 0 < g6.size.2 ∧ manhattan (1, 0) (1, 0) = 0) := by
  refine ⟨rfl, by decide⟩

/-- C10: the raw target enumeration used by FindAttackable maps
Spear{range = r} to exactly the same iterator state as
Ranged{min = 1, max = r} — so its run is the full in-bounds Manhattan
annulus `1 ≤ d ≤ r`, independent of any occupancy, and Spear targeting
through `tiles_in_range` ignores ray blocking. -/
theorem spear_targeting_equals_ranged_annulus (r : Nat) (pos size : Nat × Nat) :
    AttackType.tiles_in_range (.spear r) pos size =
      AttackType.tiles_in_range (.ranged 1 r) pos size ∧
    ∃ L, (AttackType.tiles_in_range (.spear r) pos size).run_all = .ok L ∧ L.Nodup ∧
      ∀ q : Nat × Nat, q ∈ L ↔
        (q.1 < size.1 ∧ q.2 < size.2 ∧
          1 ≤ manhattan pos q ∧ manhattan pos q ≤ r) := by
  refine ⟨rfl, ?_⟩
  rcases Nat.eq_zero_or_pos r with rfl | hr
  · refine ⟨[], ?_, List.nodup_nil, fun q => ?_⟩
    · simp only [TilesInRange.run_all, AttackType.tiles_in_range, ring_walk_all, ring_walk]
      rw [if_pos (by decide)]
    · simp only [List.not_mem_nil, false_iff]
      rintro ⟨_, _, hd1, hd2⟩
      omega
  · exact ring_walk_all_annulus size pos 1 r (le_refl 1) hr

/- ## Spear attack-range enumeration (src/src/attack_range.rs:150-198) -/

/-- Modelled from the spec: `Unit::can_spear_through` is not under src/
(only its call site, src/src/attack_range.rs:190, is).  Per spec §4.3 a
spear thrusts through allies and is blocked by a non-ally; in this
codebase an ally is a unit of the same faction. -/
def Unit.can_spear_through (self other : Unit) : Bool :=
  other.faction = self.faction

/-- The cardinal direction for a `Spear` state value
(src/src/attack_range.rs:167-172); `none` is the `_ => return None` arm. -/
def spear_dir (state : Nat) : Option (Int × Int) :=
  match state with
  | 0 => some (0, 1)
  | 1 => some (1, 0)
  | 2 => some (0, -1)
  | 3 => some (-1, 0)
  | _ => none

/-- The candidate tile `k` steps along ray `d` from `pos`
(src/src/attack_range.rs:181-182). -/
def spear_tile (pos : Nat × Nat) (d : Int × Int) (k : Nat) : Int × Int :=
  ((pos.1 : Int) + d.1 * k, (pos.2 : Int) + d.2 * k)

/-- Fuel-indexed embedding of the `Spear::next` loop
(src/src/attack_range.rs:163-197), collected over all calls: from state
`(state, dist)` walk the remaining rays, yielding every in-bounds tile
reached, and advancing to the next ray either after `max` steps or upon a
tile occupied by a unit the attacker cannot spear through (that tile is
still yielded).  `none` models non-completion (exhausted fuel, or the
impossible slot lookup failure of `grid.unit` on a malformed grid). -/
def spear_walk (canThrough : Unit → Bool) (g : Grid) (pos : Nat × Nat) (max : Nat) :
    Nat → Nat → Nat → Option (List (Nat × Nat))
  | 0, _, _ => none
  | fuel + 1, state, dist =>
    match spear_dir state with
    | none => some []
    | some d =>
      if dist ≥ max then
        spear_walk canThrough g pos max fuel (state + 1) 0
      else
        let t := spear_tile pos d (dist + 1)
        if inBoundsI g.size t then
          let res := (t.1.toNat, t.2.toNat)
          match g.unit res with
          | none => none
          | some (some other) =>
            if canThrough other then
              (spear_walk canThrough g pos max fuel state (dist + 1)).map (res :: ·)
            else
              (spear_walk canThrough g pos max fuel (state + 1) 0).map (res :: ·)
          | some none =>
            (spear_walk canThrough g pos max fuel state (dist + 1)).map (res :: ·)
        else
          spear_walk canThrough g pos max fuel state (dist + 1)

/-- Embedding of `AttackRange::spear` (src/src/attack_range.rs:47-58)
followed by draining `Spear::next`: the full yielded sequence. -/
def spear_run (g : Grid) (u : Unit) (pos : Nat × Nat) (max : Nat) :
    Option (List (Nat × Nat)) :=
  spear_walk (fun other => u.can_spear_through other) g pos max (5 * (max + 1)) 0 0

/-- Whether the tile `k` steps along ray `d` blocks the spear: in bounds
and occupied by a unit the attacker cannot spear through. -/
def blocks_at (canThrough : Unit → Bool) (g : Grid) (pos : Nat × Nat)
    (d : Int × Int) (k : Nat) : Bool :=
  inBoundsI g.size (spear_tile pos d k) &&
    (match g.unit ((spear_tile pos d k).1.toNat, (spear_tile pos d k).2.toNat) with
     | some (some other) => ! canThrough other
     | _ => false)

/-- Remaining loop iterations of the spear walk from `(state, dist)`. -/
def spear_msr (max state dist : Nat) : Nat :=
  (4 - state) * (max + 1) + (max - dist)

theorem spear_msr_ray (max state dist : Nat) (h : state ≤ 3) :
    spear_msr max (state + 1) 0 < spear_msr max state dist := by
  unfold spear_msr
  have e : (4 - state) * (max + 1) = (4 - (state + 1)) * (max + 1) + (max + 1) := by
    have h4 : 4 - state = (4 - (state + 1)) + 1 := by omega
    rw [h4, Nat.add_mul, one_mul]
  set P := (4 - (state + 1)) * (max + 1) with hP
  omega

theorem spear_msr_dist (max state dist : Nat) (h : dist < max) :
    spear_msr max state (dist + 1) < spear_msr max state dist := by
  unfold spear_msr
  set P := (4 - state) * (max + 1) with hP
  omega

theorem spear_dir_none {s : Nat} : spear_dir s = none ↔ 4 ≤ s := by
  rcases s with _ | _ | _ | _ | s <;> simp [spear_dir]

/-- On a well-formed grid, every in-bounds occupancy lookup succeeds. -/
theorem Grid.unit_isSome {g : Grid} (hwf : g.WF) {p : Nat × Nat}
    (h1 : p.1 < g.size.1) (h2 : p.2 < g.size.2) : ∃ occ, g.unit p = some occ := by
  unfold Grid.unit Grid.tile Grid.index
  rw [if_pos ⟨h1, h2⟩]
  have hi : p.2 * g.size.1 + p.1 < g.size.1 * g.size.2 := by
    calc p.2 * g.size.1 + p.1 < p.2 * g.size.1 + g.size.1 := by omega
    _ = (p.2 + 1) * g.size.1 := by ring
    _ ≤ g.size.2 * g.size.1 := Nat.mul_le_mul_right _ (by omega)
    _ = g.size.1 * g.size.2 := Nat.mul_comm _ _
  have hu : p.2 * g.size.1 + p.1 < g.units.length := by rw [hwf.1]; exact hi
  have ht : p.2 * g.size.1 + p.1 < g.terrain.length := by rw [hwf.2]; exact hi
  simp only [Option.some_bind]
  rw [List.get?_eq_get hu, List.get?_eq_get ht]
  exact ⟨_, rfl⟩

/-- A tile is still to be yielded by the spear walk standing at
`(state, dist)` iff it lies `k` steps out on a remaining ray (past `dist`
on the current ray), within range and in bounds, with no blocking tile
strictly between the walk's position on that ray and step `k`. -/
def spear_mem (canThrough : Unit → Bool) (g : Grid) (pos : Nat × Nat)
    (max state dist : Nat) (q : Nat × Nat) : Prop :=
  ∃ s d k, spear_dir s = some d ∧ state ≤ s ∧ (s = state → dist < k) ∧
    1 ≤ k ∧ k ≤ max ∧
    inBoundsI g.size (spear_tile pos d k) = true ∧
    q = ((spear_tile pos d k).1.toNat, (spear_tile pos d k).2.toNat) ∧
    ∀ j, 1 ≤ j → j < k → (s = state → dist < j) →
      blocks_at canThrough g pos d j = false

/-- Advancing past an exhausted ray does not change the to-yield set. -/
theorem spear_mem_ray {canThrough : Unit → Bool} {g : Grid} {pos : Nat × Nat}
    {max state dist : Nat} (hdist : max ≤ dist) (q : Nat × Nat) :
    spear_mem canThrough g pos max (state + 1) 0 q ↔
      spear_mem canThrough g pos max state dist q := by
  constructor
  · rintro ⟨s, d', k, hsd, hss, hlow, hk1, hkm, hin, heq, hbl⟩
    refine ⟨s, d', k, hsd, by omega, fun hs => by omega, hk1, hkm, hin, heq, ?_⟩
    intro j hj1 hjk _
    exact hbl j hj1 hjk (fun _ => hj1)
  · rintro ⟨s, d', k, hsd, hss, hlow, hk1, hkm, hin, heq, hbl⟩
    have hs2 : state + 1 ≤ s := by
      rcases Nat.lt_or_ge state s with h | h
      · omega
      · exact absurd (hlow (by omega)) (by omega)
    refine ⟨s, d', k, hsd, hs2, fun _ => hk1, hk1, hkm, hin, heq, ?_⟩
    intro j hj1 hjk _
    exact hbl j hj1 hjk (fun hs => by omega)

/-- Skipping an out-of-bounds step does not change the to-yield set. -/
theorem spear_mem_skip {canThrough : Unit → Bool} {g : Grid} {pos : Nat × Nat}
    {max state dist : Nat} {d : Int × Int} (hdir : spear_dir state = some d)
    (hinf : inBoundsI g.size (spear_tile pos d (dist + 1)) = false)
    (q : Nat × Nat) :
    spear_mem canThrough g pos max state (dist + 1) q ↔
      spear_mem canThrough g pos max state dist q := by
  have hbf : blocks_at canThrough g pos d (dist + 1) = false := by
    unfold blocks_at
    rw [hinf]
    rfl
  constructor
  · rintro ⟨s, d', k, hsd, hss, hlow, hk1, hkm, hin, heq, hbl⟩
    refine ⟨s, d', k, hsd, hss, fun hs => by have := hlow hs; omega, hk1, hkm, hin, heq, ?_⟩
    intro j hj1 hjk hjlow
    by_cases hj : s = state ∧ j = dist + 1
    · obtain ⟨hs, rfl⟩ := hj
      rw [hs] at hsd
      rw [hdir] at hsd
      obtain rfl := Option.some.inj hsd
      exact hbf
    · refine hbl j hj1 hjk (fun hs => ?_)
      have := hjlow hs
      have : j ≠ dist + 1 := fun he => hj ⟨hs, he⟩
      omega
  · rintro ⟨s, d', k, hsd, hss, hlow, hk1, hkm, hin, heq, hbl⟩
    by_cases hs : s = state
    · subst hs
      have hd' : d' = d := by
        rw [hdir] at hsd
        exact (Option.some.inj hsd).symm
      subst hd'
      have hk : k ≠ dist + 1 := by
        intro he
        rw [he] at hin
        rw [hin] at hinf
        exact Bool.noConfusion hinf
      refine ⟨s, d', k, hsd, le_refl _, fun _ => by have := hlow rfl; omega,
        hk1, hkm, hin, heq, ?_⟩
      intro j hj1 hjk hjlow
      exact hbl j hj1 hjk (fun _ => by have := hjlow rfl; omega)
    · refine ⟨s, d', k, hsd, hss, fun he => absurd he hs, hk1, hkm, hin, heq, ?_⟩
      intro j hj1 hjk hjlow
      exact hbl j hj1 hjk (fun he => absurd he hs)

/-- Yielding a passable in-bounds step: the to-yield set loses that tile. -/
theorem spear_mem_pass {canThrough : Unit → Bool} {g : Grid} {pos : Nat × Nat}
    {max state dist : Nat} {d : Int × Int} (hdir : spear_dir state = some d)
    (hdlt : dist < max)
    (hin : inBoundsI g.size (spear_tile pos d (dist + 1)) = true)
    (hbf : blocks_at canThrough g pos d (dist + 1) = false)
    (q : Nat × Nat) :
    (q = ((spear_tile pos d (dist + 1)).1.toNat, (spear_tile pos d (dist + 1)).2.toNat) ∨
        spear_mem canThrough g pos max state (dist + 1) q) ↔
      spear_mem canThrough g pos max state dist q := by
  constructor
  · rintro (rfl | hmem)
    · refine ⟨state, d, dist + 1, hdir, le_refl _, fun _ => Nat.lt_succ_self _,
        by omega, by omega, hin, rfl, ?_⟩
      intro j hj1 hjk hjlow
      exact absurd (hjlow rfl) (by omega)
    · obtain ⟨s, d', k, hsd, hss, hlow, hk1, hkm, hin', heq, hbl⟩ := hmem
      refine ⟨s, d', k, hsd, hss, fun hs => by have := hlow hs; omega, hk1, hkm,
        hin', heq, ?_⟩
      intro j hj1 hjk hjlow
      by_cases hj : s = state ∧ j = dist + 1
      · obtain ⟨hs, rfl⟩ := hj
        rw [hs] at hsd
        rw [hdir] at hsd
        obtain rfl := Option.some.inj hsd
        exact hbf
      · refine hbl j hj1 hjk (fun hs => ?_)
        have := hjlow hs
        have : j ≠ dist + 1 := fun he => hj ⟨hs, he⟩
        omega
  · rintro ⟨s, d', k, hsd, hss, hlow, hk1, hkm, hin', heq, hbl⟩
    by_cases hs : s = state
    · subst hs
      have hd' : d' = d := by
        rw [hdir] at hsd
        exact (Option.some.inj hsd).symm
      subst hd'
      by_cases hk : k = dist + 1
      · subst hk
        exact Or.inl heq
      · refine Or.inr ⟨s, d', k, hsd, le_refl _, fun _ => by have := hlow rfl; omega,
          hk1, hkm, hin', heq, ?_⟩
        intro j hj1 hjk hjlow
        exact hbl j hj1 hjk (fun _ => by have := hjlow rfl; omega)
    · refine Or.inr ⟨s, d', k, hsd, hss, fun he => absurd he hs, hk1, hkm, hin', heq, ?_⟩
      intro j hj1 hjk hjlow
      exact hbl j hj1 hjk (fun he => absurd he hs)

/-- Yielding a blocking in-bounds step: the blocking tile is yielded and
the rest of its ray is abandoned. -/
theorem spear_mem_block {canThrough : Unit → Bool} {g : Grid} {pos : Nat × Nat}
    {max state dist : Nat} {d : Int × Int} (hdir : spear_dir state = some d)
    (hdlt : dist < max)
    (hin : inBoundsI g.size (spear_tile pos d (dist + 1)) = true)
    (hbt : blocks_at canThrough g pos d (dist + 1) = true)
    (q : Nat × Nat) :
    (q = ((spear_tile pos d (dist + 1)).1.toNat, (spear_tile pos d (dist + 1)).2.toNat) ∨
        spear_mem canThrough g pos max (state + 1) 0 q) ↔
      spear_mem canThrough g pos max state dist q := by
  constructor
  · rintro (rfl | hmem)
    · refine ⟨state, d, dist + 1, hdir, le_refl _, fun _ => Nat.lt_succ_self _,
        by omega, by omega, hin, rfl, ?_⟩
      intro j hj1 hjk hjlow
      exact absurd (hjlow rfl) (by omega)
    · obtain ⟨s, d', k, hsd, hss, hlow, hk1, hkm, hin', heq, hbl⟩ := hmem
      refine ⟨s, d', k, hsd, by omega, fun hs => by omega, hk1, hkm, hin', heq, ?_⟩
      intro j hj1 hjk _
      exact hbl j hj1 hjk (fun hs => by omega)
  · rintro ⟨s, d', k, hsd, hss, hlow, hk1, hkm, hin', heq, hbl⟩
    by_cases hs : s = state
    · subst hs
      have hd' : d' = d := by
        rw [hdir] at hsd
        exact (Option.some.inj hsd).symm
      subst hd'
      by_cases hk : k = dist + 1
      · subst hk
        exact Or.inl heq
      · exfalso
        have hblk := hbl (dist + 1) (by omega) (by have := hlow rfl; omega)
          (fun _ => Nat.lt_succ_self _)
        rw [hblk] at hbt
        exact Bool.noConfusion hbt
    · refine Or.inr ⟨s, d', k, hsd, by omega, fun he => by omega, hk1, hkm, hin', heq, ?_⟩
      intro j hj1 hjk _
      exact hbl j hj1 hjk (fun he => absurd he hs)

/-- Main run lemma for the spear walk: with sufficient fuel it completes
on a well-formed grid and yields exactly the `spear_mem` set. -/
theorem spear_walk_mem (canThrough : Unit → Bool) (g : Grid) (pos : Nat × Nat)
    (max : Nat) (hwf : g.WF) :
    ∀ fuel state dist, spear_msr max state dist < fuel →
    ∃ L, spear_walk canThrough g pos max fuel state dist = some L ∧
      ∀ q : Nat × Nat, q ∈ L ↔ spear_mem canThrough g pos max state dist q := by
  intro fuel
  induction fuel with
  | zero => exact fun state dist hf => absurd hf (Nat.not_lt_zero _)
  | succ fuel ih =>
    intro state dist hf
    rcases hdir : spear_dir state with _ | d
    · refine ⟨[], by simp [spear_walk, hdir], fun q => ?_⟩
      simp only [List.not_mem_nil, false_iff]
      rintro ⟨s, d, k, hsd, hss, -⟩
      have h4 : 4 ≤ state := spear_dir_none.mp hdir
      rw [spear_dir_none.mpr (by omega)] at hsd
      exact Option.noConfusion hsd
    · have hstate3 : state ≤ 3 := by
        by_contra h
        rw [spear_dir_none.mpr (by omega)] at hdir
        exact Option.noConfusion hdir
      by_cases hdist : dist ≥ max
      · obtain ⟨L, hrun, hmem⟩ := ih (state + 1) 0
          (by have := spear_msr_ray max state dist hstate3; omega)
        refine ⟨L, ?_, fun q => ?_⟩
        · simp only [spear_walk, hdir]
          rw [if_pos hdist]
          exact hrun
        · rw [hmem q]
          exact spear_mem_ray hdist q
      · have hdlt : dist < max := by omega
        have hmd := spear_msr_dist max state dist hdlt
        by_cases hin : inBoundsI g.size (spear_tile pos d (dist + 1)) = true
        · have hb1 : (spear_tile pos d (dist + 1)).1.toNat < g.size.1 ∧
              (spear_tile pos d (dist + 1)).2.toNat < g.size.2 := by
            obtain ⟨e1, e2, e3, e4⟩ := inBoundsI_iff.mp hin
            constructor <;> omega
          obtain ⟨occ, hocc⟩ :=
            @Grid.unit_isSome g hwf
              ((spear_tile pos d (dist + 1)).1.toNat, (spear_tile pos d (dist + 1)).2.toNat)
              hb1.1 hb1.2
          rcases occ with _ | other
          · -- empty tile: yield, stay on the ray
            have hbf : blocks_at canThrough g pos d (dist + 1) = false := by
              simp [blocks_at, hocc]
            obtain ⟨L2, hrun2, hmem2⟩ := ih state (dist + 1) (by omega)
            refine ⟨((spear_tile pos d (dist + 1)).1.toNat,
                (spear_tile pos d (dist + 1)).2.toNat) :: L2, ?_, fun q => ?_⟩
            · simp [spear_walk, hdir, hdist, hin, hocc, hrun2]
            · rw [List.mem_cons, hmem2 q]
              exact spear_mem_pass hdir hdlt hin hbf q
          · by_cases hct : canThrough other = true
            · -- occupied but passable: yield, stay on the ray
              have hbf : blocks_at canThrough g pos d (dist + 1) = false := by
                simp [blocks_at, hocc, hct]
              obtain ⟨L2, hrun2, hmem2⟩ := ih state (dist + 1) (by omega)
              refine ⟨((spear_tile pos d (dist + 1)).1.toNat,
                (spear_tile pos d (dist + 1)).2.toNat) :: L2, ?_, fun q => ?_⟩
              · simp [spear_walk, hdir, hdist, hin, hocc, hct, hrun2]
              · rw [List.mem_cons, hmem2 q]
                exact spear_mem_pass hdir hdlt hin hbf q
            · -- blocking unit: yield the blocker, abandon the ray
              have hcf : canThrough other = false := by
                simp only [Bool.not_eq_true] at hct
                exact hct
              have hbt : blocks_at canThrough g pos d (dist + 1) = true := by
                simp [blocks_at, hocc, hin, hcf]
              obtain ⟨L2, hrun2, hmem2⟩ := ih (state + 1) 0
                (by have := spear_msr_ray max state dist hstate3; omega)
              refine ⟨((spear_tile pos d (dist + 1)).1.toNat,
                (spear_tile pos d (dist + 1)).2.toNat) :: L2, ?_, fun q => ?_⟩
              · simp [spear_walk, hdir, hdist, hin, hocc, hcf, hrun2]
              · rw [List.mem_cons, hmem2 q]
                exact spear_mem_block hdir hdlt hin hbt q
        · -- out of bounds: skip the step, stay on the ray
          have hinf : inBoundsI g.size (spear_tile pos d (dist + 1)) = false := by
            simp [Bool.not_eq_true] at hin
            exact hin
          obtain ⟨L2, hrun2, hmem2⟩ := ih state (dist + 1) (by omega)
          refine ⟨L2, ?_, fun q => ?_⟩
          · simp [spear_walk, hdir, hdist, hinf, hrun2]
          · rw [hmem2 q]
            exact spear_mem_skip hdir hinf q

/-- Distinct rays, or distinct steps on a ray, give distinct tiles. -/
theorem spear_tile_inj {pos : Nat × Nat} {s s' : Nat} {d d' : Int × Int}
    {k k' : Nat} (hs : spear_dir s = some d) (hs' : spear_dir s' = some d')
    (hk : 1 ≤ k) (hk' : 1 ≤ k')
    (he : spear_tile pos d k = spear_tile pos d' k') : d = d' ∧ k = k' := by
  rcases s with _ | _ | _ | _ | s <;> rcases s' with _ | _ | _ | _ | s' <;>
    simp only [spear_dir, Option.some.injEq, reduceCtorEq] at hs hs' <;>
    subst hs <;> subst hs' <;>
    simp only [spear_tile, Prod.mk.injEq, zero_mul, one_mul, neg_mul] at he <;>
    first
      | exact ⟨rfl, by omega⟩
      | (exfalso; omega)

/-- C4: on each of the four cardinal rays (of length at most `range`), the
Spear enumeration yields the first blocking tile of the ray, never yields
an in-bounds tile strictly beyond it, and yields every in-bounds tile of
the ray strictly before it. -/
theorem spear_blocks_at_first_blocker (g : Grid) (u : Unit) (pos : Nat × Nat)
    (max : Nat) (hwf : g.WF) :
    ∃ L, spear_run g u pos max = some L ∧
      ∀ s d, spear_dir s = some d →
      ∀ b, 1 ≤ b → b ≤ max →
        blocks_at (fun o => u.can_spear_through o) g pos d b = true →
        (∀ j, 1 ≤ j → j < b →
          blocks_at (fun o => u.can_spear_through o) g pos d j = false) →
        (((spear_tile pos d b).1.toNat, (spear_tile pos d b).2.toNat) ∈ L ∧
          (∀ k, b < k → k ≤ max → inBoundsI g.size (spear_tile pos d k) = true →
            ((spear_tile pos d k).1.toNat, (spear_tile pos d k).2.toNat) ∉ L) ∧
          (∀ k, 1 ≤ k → k < b → inBoundsI g.size (spear_tile pos d k) = true →
            ((spear_tile pos d k).1.toNat, (spear_tile pos d k).2.toNat) ∈ L)) := by
  obtain ⟨L, hrun, hmem⟩ :=
    spear_walk_mem (fun o => u.can_spear_through o) g pos max hwf
      (5 * (max + 1)) 0 0 (by unfold spear_msr; omega)
  refine ⟨L, hrun, ?_⟩
  intro s d hsd b hb1 hbm hbt hnob
  have hinb : inBoundsI g.size (spear_tile pos d b) = true := by
    unfold blocks_at at hbt
    exact (Bool.and_eq_true _ _).mp hbt |>.1
  refine ⟨?_, ?_, ?_⟩
  · exact (hmem _).mpr ⟨s, d, b, hsd, Nat.zero_le _, fun _ => by omega, hb1, hbm,
      hinb, rfl, fun j hj1 hjb _ => hnob j hj1 hjb⟩
  · intro k hbk hkm hink hmemk
    obtain ⟨s', d', k', hsd', -, -, hk1', hkm', hin', heq, hbl'⟩ := (hmem _).mp hmemk
    obtain ⟨e1, e2, e3, e4⟩ := inBoundsI_iff.mp hink
    obtain ⟨f1, f2, f3, f4⟩ := inBoundsI_iff.mp hin'
    obtain ⟨hx, hy⟩ := toNat_pair_inj e1 e3 f1 f3 heq
    have hte : spear_tile pos d k = spear_tile pos d' k' := Prod.ext hx hy
    obtain ⟨rfl, rfl⟩ := spear_tile_inj hsd hsd' (by omega) hk1' hte
    have := hbl' b hb1 (by omega) (fun _ => by omega)
    rw [this] at hbt
    exact Bool.noConfusion hbt
  · intro k hk1 hkb hink
    exact (hmem _).mpr ⟨s, d, k, hsd, Nat.zero_le _, fun _ => by omega, hk1,
      by omega, hink, rfl, fun j hj1 hjk _ => hnob j hj1 (by omega)⟩

/-- A 5×1 grass strip with a blue unit at (2,0). -/
def gS : Grid :=
  { size := (5, 1), units := [none, none, some uB, none, none],
    terrain := List.replicate 5 .grass }

/-- Witness for C4: a red attacker spearing east along the strip `gS` with
range 3 is stopped by the blue unit at (2,0): that tile is the first
blocker (b = 2) on the east ray. -/
theorem spear_blocks_at_first_blocker_witness :
    gS.WF ∧
      ∃ L, spear_run gS uR (0, 0) 3 = some L ∧
        ∀ s d, spear_dir s = some d →
        ∀ b, 1 ≤ b → b ≤ 3 →
          blocks_at (fun o => uR.can_spear_through o) gS (0, 0) d b = true →
          (∀ j, 1 ≤ j → j < b →
            blocks_at (fun o => uR.can_spear_through o) gS (0, 0) d j = false) →
          (((spear_tile (0, 0) d b).1.toNat, (spear_tile (0, 0) d b).2.toNat) ∈ L ∧
            (∀ k, b < k → k ≤ 3 → inBoundsI gS.size (spear_tile (0, 0) d k) = true →
              ((spear_tile (0, 0) d k).1.toNat, (spear_tile (0, 0) d k).2.toNat) ∉ L) ∧
            (∀ k, 1 ≤ k → k < b → inBoundsI gS.size (spear_tile (0, 0) d k) = true →
              ((spear_tile (0, 0) d k).1.toNat, (spear_tile (0, 0) d k).2.toNat) ∈ L)) :=
  ⟨by decide, spear_blocks_at_first_blocker gS uR (0, 0) 3 (by decide)⟩

/- ## The movement path-finder (`Unit::path_finder`, src/src/unit.rs:51-108)

A stack-based relaxation search: pop a (position, cost) pair, try the four
orthogonal neighbours in the order `(1,0), (0,1), (-1,0), (0,-1)`
(src/src/unit.rs:59-64), skip out-of-bounds neighbours and tiles occupied
by another faction's unit, and record/improve the accumulated cost when it
stays within the movement budget, pushing improved entries back on the
stack.  The `BTreeMap` of costs is embedded as a function
`(Nat × Nat) → Option Nat`. -/

/-- The cost map built by the path-finder. -/
abbrev CostMap := (Nat × Nat) → Option Nat

/-- One `dir` iteration of the inner loop of `Unit::path_finder`
(src/src/unit.rs:58-105) for direction `d`, acting on the cost map and on
the list of entries pushed so far during this pop (in push order).
`none` models the impossible panic of `state.grid.tile` on a malformed
grid (the call is made only after the bounds check). -/
def relax_dir (self : Unit) (g : Grid) (p : Nat × Nat) (cost : Nat)
    (c : CostMap) (ps : List ((Nat × Nat) × Nat)) (d : Int × Int) :
    Option (CostMap × List ((Nat × Nat) × Nat)) :=
  let nx : Int := (p.1 : Int) + d.1
  let ny : Int := (p.2 : Int) + d.2
  if nx < 0 ∨ (g.size.1 : Int) ≤ nx ∨ ny < 0 ∨ (g.size.2 : Int) ≤ ny then
    some (c, ps)
  else
    let npos : Nat × Nat := (nx.toNat, ny.toNat)
    match g.tile npos with
    | none => none
    | some (munit, terrain) =>
      if (match munit with
          | some other => other.faction != self.faction
          | none => false) then
        some (c, ps)
      else
        let ncost := satAdd cost (self.terrain_cost terrain)
        if ncost > self.unitType.movement then
          some (c, ps)
        else
          match c npos with
          | none => some (Function.update c npos (some ncost), ps ++ [(npos, ncost)])
          | some old =>
            if old > ncost then
              some (Function.update c npos (some ncost), ps ++ [(npos, ncost)])
            else
              some (c, ps)

/-- The full inner loop of one pop: directions 0 to 3 in order. -/
def relax_one (self : Unit) (g : Grid) (p : Nat × Nat) (cost : Nat)
    (costs : CostMap) : Option (CostMap × List ((Nat × Nat) × Nat)) := do
  let a1 ← relax_dir self g p cost costs [] (1, 0)
  let a2 ← relax_dir self g p cost a1.1 a1.2 (0, 1)
  let a3 ← relax_dir self g p cost a2.1 a2.2 (-1, 0)
  relax_dir self g p cost a3.1 a3.2 (0, -1)

/-- Fuel-indexed embedding of the outer `while let Some(...) =
to_be_searched.pop()` loop (src/src/unit.rs:56-106).  The stack is the
`to_be_searched` vector with its top at the head, so the entries pushed by
one pop are prepended in reverse push order. -/
def path_finder_go (self : Unit) (g : Grid) :
    Nat → List ((Nat × Nat) × Nat) → CostMap → Option CostMap
  | _, [], costs => some costs
  | 0, _ :: _, _ => none
  | fuel + 1, pc :: rest, costs =>
    match relax_one self g pc.1 pc.2 costs with
    | none => none
    | some (costs2, pushed) =>
      path_finder_go self g fuel (pushed.reverse ++ rest) costs2

/-- Embedding of `Unit::path_finder` (src/src/unit.rs:51-108), with a
(provably sufficient) fuel. -/
def Unit.path_finder (self : Unit) (pos : Nat × Nat) (g : Grid) : Option CostMap :=
  path_finder_go self g
    (2 * (g.size.1 * g.size.2) * (self.unitType.movement + 1) + 2)
    [(pos, 0)] (fun _ => none)

/- ### Specification-side notions for the path-finder claims -/

/-- One four-directional orthogonal step between grid positions. -/
def stepOK (p q : Nat × Nat) : Prop :=
  (q.1 = p.1 + 1 ∧ q.2 = p.2) ∨ (p.1 = q.1 + 1 ∧ q.2 = p.2) ∨
  (q.1 = p.1 ∧ q.2 = p.2 + 1) ∨ (q.1 = p.1 ∧ p.2 = q.2 + 1)

/-- A tile the mover may enter: in bounds and not occupied by a unit the
mover cannot pass through (the search lets it pass only through units of
its own faction, src/src/unit.rs:80-84). -/
def passable (self : Unit) (g : Grid) (q : Nat × Nat) : Prop :=
  q.1 < g.size.1 ∧ q.2 < g.size.2 ∧
    ∀ other, g.unit q = some (some other) → other.faction = self.faction

/-- Terrain entry cost of a tile for the mover. -/
def entry_cost (self : Unit) (g : Grid) (q : Nat × Nat) : Nat :=
  match g.tile q with
  | some (_, t) => self.terrain_cost t
  | none => 0

/-- The position `q` can be reached from `start` by a nonempty sequence of
orthogonal steps never entering an impassable tile, whose accumulated sum
of per-tile entry costs is the given value. -/
inductive Reaches (self : Unit) (g : Grid) (start : Nat × Nat) :
    Nat × Nat → Nat → Prop
  | single {q : Nat × Nat} : stepOK start q → passable self g q →
      Reaches self g start q (entry_cost self g q)
  | step {p : Nat × Nat} {c : Nat} {q : Nat × Nat} :
      Reaches self g start p c → stepOK p q → passable self g q →
      Reaches self g start q (c + entry_cost self g q)

/-- The cost map has relaxed `p` at cost `cost`: every passable orthogonal
neighbour affordable from there is mapped at no more than the saturated
candidate cost. -/
def relaxed (self : Unit) (g : Grid) (m : CostMap) (p : Nat × Nat) (cost : Nat) : Prop :=
  ∀ q, stepOK p q → passable self g q →
    satAdd cost (entry_cost self g q) ≤ self.unitType.movement →
    ∃ cq, m q = some cq ∧ cq ≤ satAdd cost (entry_cost self g q)

/-- The cost map has relaxed direction `d` from `p` at cost `cost`. -/
def relaxedAt (self : Unit) (g : Grid) (m : CostMap) (p : Nat × Nat) (cost : Nat)
    (d : Int × Int) : Prop :=
  ∀ q : Nat × Nat, ((q.1 : Int) = (p.1 : Int) + d.1) →
    ((q.2 : Int) = (p.2 : Int) + d.2) → passable self g q →
    satAdd cost (entry_cost self g q) ≤ self.unitType.movement →
    ∃ cq, m q = some cq ∧ cq ≤ satAdd cost (entry_cost self g q)

/-- Search potential: the sum over the grid of the recorded costs, with
unrecorded tiles counted at budget + 1.  Every insertion or improvement
strictly decreases it. -/
def phi (g : Grid) (B : Nat) (costs : CostMap) : Nat :=
  Finset.sum (Finset.range g.size.1 ×ˢ Finset.range g.size.2)
    (fun p => match costs p with | none => B + 1 | some c => c)

/-- Everything one direction step can do to the cost map and push list:
either nothing, or record the strictly improved saturated cost of the
in-bounds passable neighbour in direction `d` and push it. -/
abbrev dir_outcome (self : Unit) (g : Grid) (p : Nat × Nat) (cost : Nat)
    (c : CostMap) (ps : List ((Nat × Nat) × Nat)) (d : Int × Int)
    (c2 : CostMap) (ps2 : List ((Nat × Nat) × Nat)) : Prop :=
  (c2 = c ∧ ps2 = ps) ∨
    ∃ q v, ((q.1 : Int) = (p.1 : Int) + d.1) ∧ ((q.2 : Int) = (p.2 : Int) + d.2) ∧
      passable self g q ∧ v = satAdd cost (entry_cost self g q) ∧
      v ≤ self.unitType.movement ∧
      (c q = none ∨ ∃ old, c q = some old ∧ v < old) ∧
      c2 = Function.update c q (some v) ∧ ps2 = ps ++ [(q, v)]

theorem relax_dir_spec {self : Unit} {g : Grid} {p : Nat × Nat} {cost : Nat}
    {c : CostMap} {ps : List ((Nat × Nat) × Nat)} {d : Int × Int}
    {acc2 : CostMap × List ((Nat × Nat) × Nat)}
    (h : relax_dir self g p cost c ps d = some acc2) :
    dir_outcome self g p cost c ps d acc2.1 acc2.2 ∧
    relaxedAt self g acc2.1 p cost d := by
  simp only [relax_dir] at h
  split at h
  next hguard =>
    obtain rfl : (c, ps) = acc2 := Option.some.inj h
    refine ⟨Or.inl ⟨rfl, rfl⟩, ?_⟩
    intro q hq1 hq2 hpass hcost
    obtain ⟨hb1, hb2, -⟩ := hpass
    omega
  next hguard =>
    have hg4 : 0 ≤ (p.1 : Int) + d.1 ∧ (p.1 : Int) + d.1 < (g.size.1 : Int) ∧
        0 ≤ (p.2 : Int) + d.2 ∧ (p.2 : Int) + d.2 < (g.size.2 : Int) := by
      push_neg at hguard
      omega
    split at h
    next htile => exact Option.noConfusion h
    next munit terrain htile =>
      have hqpos : ∀ q : Nat × Nat, (q.1 : Int) = (p.1 : Int) + d.1 →
          (q.2 : Int) = (p.2 : Int) + d.2 →
          q = (((p.1 : Int) + d.1).toNat, ((p.2 : Int) + d.2).toNat) := by
        intro q hq1 hq2
        exact Prod.ext (by omega) (by omega)
      have hunit : g.unit (((p.1 : Int) + d.1).toNat, ((p.2 : Int) + d.2).toNat) =
          some munit := by
        unfold Grid.unit
        rw [htile]
        rfl
      have hec : entry_cost self g
          (((p.1 : Int) + d.1).toNat, ((p.2 : Int) + d.2).toNat) =
          self.terrain_cost terrain := by
        unfold entry_cost
        rw [htile]
      split at h
      next hblock =>
        obtain rfl : (c, ps) = acc2 := Option.some.inj h
        refine ⟨Or.inl ⟨rfl, rfl⟩, ?_⟩
        intro q hq1 hq2 hpass hcost
        obtain rfl := hqpos q hq1 hq2
        rcases munit with _ | other
        · exact Bool.noConfusion hblock
        · have heq := hpass.2.2 other hunit
          rw [bne_iff_ne] at hblock
          exact absurd heq hblock
      next hblock =>
        have hpassn : passable self g
            (((p.1 : Int) + d.1).toNat, ((p.2 : Int) + d.2).toNat) := by
          refine ⟨by omega, by omega, ?_⟩
          intro other hother
          rw [hunit] at hother
          have hmu := Option.some.inj hother
          simp only [hmu, bne_iff_ne, not_not] at hblock
          exact hblock
        split at h
        next hcost2 =>
          obtain rfl : (c, ps) = acc2 := Option.some.inj h
          refine ⟨Or.inl ⟨rfl, rfl⟩, ?_⟩
          intro q hq1 hq2 hpass hcost
          obtain rfl := hqpos q hq1 hq2
          rw [hec] at hcost
          omega
        next hcost2 =>
          split at h
          next hmap =>
            obtain rfl := Option.some.inj h
            constructor
            · refine Or.inr ⟨(((p.1 : Int) + d.1).toNat, ((p.2 : Int) + d.2).toNat),
                satAdd cost (self.terrain_cost terrain), by omega, by omega, hpassn,
                by rw [hec], by omega, Or.inl hmap, rfl, rfl⟩
            · intro q hq1 hq2 hpass hcost
              obtain rfl := hqpos q hq1 hq2
              refine ⟨satAdd cost (self.terrain_cost terrain), ?_, by rw [hec]⟩
              exact Function.update_same _ _ _
          next old hmap =>
            split at h
            next hgt =>
              obtain rfl := Option.some.inj h
              constructor
              · refine Or.inr ⟨(((p.1 : Int) + d.1).toNat, ((p.2 : Int) + d.2).toNat),
                  satAdd cost (self.terrain_cost terrain), by omega, by omega, hpassn,
                  by rw [hec], by omega, Or.inr ⟨old, hmap, by omega⟩, rfl, rfl⟩
              · intro q hq1 hq2 hpass hcost
                obtain rfl := hqpos q hq1 hq2
                refine ⟨satAdd cost (self.terrain_cost terrain), ?_, by rw [hec]⟩
                exact Function.update_same _ _ _
            next hgt =>
              obtain rfl : (c, ps) = acc2 := Option.some.inj h
              refine ⟨Or.inl ⟨rfl, rfl⟩, ?_⟩
              intro q hq1 hq2 hpass hcost
              obtain rfl := hqpos q hq1 hq2
              rw [hec]
              exact ⟨old, hmap, by omega⟩

/-- Monotone evolution of cost maps: mapped entries stay mapped with no
larger a cost. -/
abbrev mapEvolves (c c2 : CostMap) : Prop :=
  ∀ q cc, c q = some cc → ∃ cq, c2 q = some cq ∧ cq ≤ cc

theorem dir_outcome_evolves {self : Unit} {g : Grid} {p : Nat × Nat} {cost : Nat}
    {c : CostMap} {ps : List ((Nat × Nat) × Nat)} {d : Int × Int} {c2 ps2}
    (h : dir_outcome self g p cost c ps d c2 ps2) : mapEvolves c c2 := by
  rcases h with ⟨rfl, rfl⟩ | ⟨q0, v, -, -, -, -, -, hold, rfl, rfl⟩
  · exact fun q cc hq => ⟨cc, hq, le_refl _⟩
  · intro q cc hq
    by_cases hqe : q = q0
    · subst hqe
      rcases hold with hnone | ⟨old, hsome, hlt⟩
      · rw [hq] at hnone
        exact Option.noConfusion hnone
      · rw [hq] at hsome
        obtain rfl := Option.some.inj hsome
        exact ⟨v, Function.update_same _ _ _, by omega⟩
    · exact ⟨cc, by rw [Function.update_noteq hqe]; exact hq, le_refl _⟩

theorem mapEvolves_trans {c1 c2 c3 : CostMap} (h1 : mapEvolves c1 c2)
    (h2 : mapEvolves c2 c3) : mapEvolves c1 c3 := by
  intro q cc hq
  obtain ⟨ca, ha, hlea⟩ := h1 q cc hq
  obtain ⟨cb, hb, hleb⟩ := h2 q ca ha
  exact ⟨cb, hb, le_trans hleb hlea⟩

theorem relaxedAt_mono {self : Unit} {g : Grid} {m m2 : CostMap} {p : Nat × Nat}
    {cost : Nat} {d : Int × Int} (he : mapEvolves m m2)
    (h : relaxedAt self g m p cost d) : relaxedAt self g m2 p cost d := by
  intro q hq1 hq2 hpass hcost
  obtain ⟨cq, hm, hle⟩ := h q hq1 hq2 hpass hcost
  obtain ⟨c2, hm2, hle2⟩ := he q cq hm
  exact ⟨c2, hm2, le_trans hle2 hle⟩

/-- The four directions of the inner loop cover every orthogonal step. -/
theorem relaxed_of_four {self : Unit} {g : Grid} {m : CostMap} {p : Nat × Nat}
    {cost : Nat} (h1 : relaxedAt self g m p cost (1, 0))
    (h2 : relaxedAt self g m p cost (0, 1))
    (h3 : relaxedAt self g m p cost (-1, 0))
    (h4 : relaxedAt self g m p cost (0, -1)) : relaxed self g m p cost := by
  intro q hstep hpass hcost
  rcases hstep with ⟨ha, hb⟩ | ⟨ha, hb⟩ | ⟨ha, hb⟩ | ⟨ha, hb⟩
  · exact h1 q (by push_cast; omega) (by push_cast; omega) hpass hcost
  · exact h3 q (by push_cast; omega) (by push_cast; omega) hpass hcost
  · exact h2 q (by push_cast; omega) (by push_cast; omega) hpass hcost
  · exact h4 q (by push_cast; omega) (by push_cast; omega) hpass hcost

/-- Facts about every entry a direction step appends to the push list. -/
theorem dir_outcome_pushes {self : Unit} {g : Grid} {p : Nat × Nat} {cost : Nat}
    {c : CostMap} {ps : List ((Nat × Nat) × Nat)} {d : Int × Int} {c2 ps2}
    (h : dir_outcome self g p cost c ps d c2 ps2)
    (hd : ((d.1 = 1 ∧ d.2 = 0) ∨ (d.1 = -1 ∧ d.2 = 0) ∨
      (d.1 = 0 ∧ d.2 = 1) ∨ (d.1 = 0 ∧ d.2 = -1))) :
    ∀ qv ∈ ps2, qv ∈ ps ∨
      (qv.2 = satAdd cost (entry_cost self g qv.1) ∧ qv.2 ≤ self.unitType.movement ∧
        stepOK p qv.1 ∧ passable self g qv.1) := by
  rcases h with ⟨rfl, rfl⟩ | ⟨q0, v, hq1, hq2, hpass, hv, hvB, -, rfl, rfl⟩
  · exact fun qv hqv => Or.inl hqv
  · intro qv hqv
    rcases List.mem_append.mp hqv with hqv | hqv
    · exact Or.inl hqv
    · obtain rfl : qv = (q0, v) := by simpa using hqv
      refine Or.inr ⟨hv, hvB, ?_, hpass⟩
      show stepOK p q0
      unfold stepOK
      rcases hd with ⟨e1, e2⟩ | ⟨e1, e2⟩ | ⟨e1, e2⟩ | ⟨e1, e2⟩ <;>
        rw [e1] at hq1 <;> rw [e2] at hq2 <;> omega

/-- The final value of every changed slot was pushed. -/
theorem dir_outcome_changes {self : Unit} {g : Grid} {p : Nat × Nat} {cost : Nat}
    {c : CostMap} {ps : List ((Nat × Nat) × Nat)} {d : Int × Int} {c2 ps2}
    (h : dir_outcome self g p cost c ps d c2 ps2) :
    ∀ q, c2 q ≠ c q → ∃ v, c2 q = some v ∧ (q, v) ∈ ps2 := by
  rcases h with ⟨rfl, rfl⟩ | ⟨q0, v, -, -, -, -, -, -, rfl, rfl⟩
  · exact fun q hq => absurd rfl hq
  · intro q hq
    by_cases hqe : q = q0
    · subst hqe
      exact ⟨v, Function.update_same _ _ _, List.mem_append.mpr (Or.inr (by simp))⟩
    · rw [Function.update_noteq hqe] at hq
      exact absurd rfl hq

/-- Push lists only grow along a direction step. -/
theorem dir_outcome_sub {self : Unit} {g : Grid} {p : Nat × Nat} {cost : Nat}
    {c : CostMap} {ps : List ((Nat × Nat) × Nat)} {d : Int × Int} {c2 ps2}
    (h : dir_outcome self g p cost c ps d c2 ps2) :
    ∀ qv, qv ∈ ps → qv ∈ ps2 := by
  rcases h with ⟨rfl, rfl⟩ | ⟨q0, v, -, -, -, -, -, -, rfl, rfl⟩
  · exact fun qv hqv => hqv
  · exact fun qv hqv => List.mem_append.mpr (Or.inl hqv)

/-- Combined facts about one full pop of the search loop. -/
theorem relax_one_spec {self : Unit} {g : Grid} {p : Nat × Nat} {cost : Nat}
    {costs : CostMap} {c2 : CostMap} {ps : List ((Nat × Nat) × Nat)}
    (h : relax_one self g p cost costs = some (c2, ps)) :
    mapEvolves costs c2 ∧
    (∀ q, c2 q ≠ costs q → ∃ v, c2 q = some v ∧ (q, v) ∈ ps) ∧
    (∀ qv ∈ ps, qv.2 = satAdd cost (entry_cost self g qv.1) ∧
      qv.2 ≤ self.unitType.movement ∧ stepOK p qv.1 ∧ passable self g qv.1) ∧
    relaxed self g c2 p cost := by
  unfold relax_one at h
  obtain ⟨a1, h1, h⟩ := Option.bind_eq_some.mp h
  obtain ⟨a2, h2, h⟩ := Option.bind_eq_some.mp h
  obtain ⟨a3, h3, h4⟩ := Option.bind_eq_some.mp h
  obtain ⟨A1, R1⟩ := relax_dir_spec h1
  obtain ⟨A2, R2⟩ := relax_dir_spec h2
  obtain ⟨A3, R3⟩ := relax_dir_spec h3
  obtain ⟨A4, R4⟩ := relax_dir_spec h4
  rw [show (c2, ps).1 = c2 from rfl] at A4 R4
  rw [show (c2, ps).2 = ps from rfl] at A4
  have e1 := dir_outcome_evolves A1
  have e2 := dir_outcome_evolves A2
  have e3 := dir_outcome_evolves A3
  have e4 := dir_outcome_evolves A4
  have e12 := mapEvolves_trans e1 e2
  have e123 := mapEvolves_trans e12 e3
  have e1234 := mapEvolves_trans e123 e4
  refine ⟨e1234, ?_, ?_, ?_⟩
  · -- every changed slot carries a pushed value
    intro q hq
    by_cases h4q : c2 q = a3.1 q
    · rw [h4q] at hq ⊢
      by_cases h3q : a3.1 q = a2.1 q
      · rw [h3q] at hq ⊢
        by_cases h2q : a2.1 q = a1.1 q
        · rw [h2q] at hq ⊢
          obtain ⟨v, hv, hmem⟩ := dir_outcome_changes A1 q hq
          exact ⟨v, hv, dir_outcome_sub A4 _ (dir_outcome_sub A3 _ (dir_outcome_sub A2 _ hmem))⟩
        · obtain ⟨v, hv, hmem⟩ := dir_outcome_changes A2 q h2q
          exact ⟨v, hv, dir_outcome_sub A4 _ (dir_outcome_sub A3 _ hmem)⟩
      · obtain ⟨v, hv, hmem⟩ := dir_outcome_changes A3 q h3q
        exact ⟨v, hv, dir_outcome_sub A4 _ hmem⟩
    · obtain ⟨v, hv, hmem⟩ := dir_outcome_changes A4 q h4q
      exact ⟨v, hv, hmem⟩
  · -- provenance of every pushed entry
    intro qv hqv
    rcases dir_outcome_pushes A4 (by norm_num) qv hqv with hqv | hfacts
    · rcases dir_outcome_pushes A3 (by norm_num) qv hqv with hqv | hfacts
      · rcases dir_outcome_pushes A2 (by norm_num) qv hqv with hqv | hfacts
        · rcases dir_outcome_pushes A1 (by norm_num) qv hqv with hqv | hfacts
          · exact absurd hqv (List.not_mem_nil _)
          · exact hfacts
        · exact hfacts
      · exact hfacts
    · exact hfacts
  · -- the popped pair is fully relaxed in the final map
    refine relaxed_of_four ?_ ?_ ?_ ?_
    · exact relaxedAt_mono e4 (relaxedAt_mono e3 (relaxedAt_mono e2 R1))
    · exact relaxedAt_mono e4 (relaxedAt_mono e3 R2)
    · exact relaxedAt_mono e4 R3
    · exact R4

theorem satAdd_le_satAdd {a b k : Nat} (h : a ≤ b) : satAdd a k ≤ satAdd b k := by
  unfold satAdd
  omega

theorem satAdd_eq_add {a b B : Nat} (h : satAdd a b ≤ B) (hB : B < u32Max) :
    satAdd a b = a + b := by
  unfold satAdd at h ⊢
  omega

theorem relaxed_mono {self : Unit} {g : Grid} {m m2 : CostMap} {p : Nat × Nat}
    {cost : Nat} (he : mapEvolves m m2) (h : relaxed self g m p cost) :
    relaxed self g m2 p cost := by
  intro q hq hp hc
  obtain ⟨cq, hm, hle⟩ := h q hq hp hc
  obtain ⟨c2, hm2, hle2⟩ := he q cq hm
  exact ⟨c2, hm2, le_trans hle2 hle⟩

theorem relaxed_le_cost {self : Unit} {g : Grid} {m : CostMap} {p : Nat × Nat}
    {c c2 : Nat} (hle : c2 ≤ c) (h : relaxed self g m p c2) :
    relaxed self g m p c := by
  intro q hq hp hcost
  obtain ⟨cq, hm, hle2⟩ := h q hq hp (le_trans (satAdd_le_satAdd hle) hcost)
  exact ⟨cq, hm, le_trans hle2 (satAdd_le_satAdd hle)⟩

/-- Inserting or strictly improving an in-bounds entry strictly decreases
the search potential. -/
theorem phi_update_lt {g : Grid} {B : Nat} {costs : CostMap} {q : Nat × Nat} {v : Nat}
    (hb1 : q.1 < g.size.1) (hb2 : q.2 < g.size.2)
    (hold : (costs q = none ∧ v ≤ B) ∨ ∃ old, costs q = some old ∧ v < old) :
    phi g B (Function.update costs q (some v)) < phi g B costs := by
  have hmem : q ∈ Finset.range g.size.1 ×ˢ Finset.range g.size.2 := by
    rw [Finset.mem_product, Finset.mem_range, Finset.mem_range]
    exact ⟨hb1, hb2⟩
  have hw : (fun p => match Function.update costs q (some v) p with
      | none => B + 1 | some c => c) =
      Function.update (fun p => match costs p with | none => B + 1 | some c => c) q v := by
    funext p
    by_cases hpq : p = q
    · subst hpq
      rw [Function.update_same, Function.update_same]
    · rw [Function.update_noteq hpq, Function.update_noteq hpq]
  unfold phi
  rw [hw, Finset.sum_update_of_mem hmem, Finset.sum_eq_sum_diff_singleton_add hmem]
  rcases hold with ⟨hn, hv⟩ | ⟨old, hs, hv⟩
  · simp only [hn]
    omega
  · simp only [hs]
    omega

/-- A direction step pays for each push with a strict potential drop. -/
theorem dir_outcome_phi {self : Unit} {g : Grid} {p : Nat × Nat} {cost : Nat}
    {c : CostMap} {ps : List ((Nat × Nat) × Nat)} {d : Int × Int} {c2 ps2}
    (h : dir_outcome self g p cost c ps d c2 ps2) :
    phi g self.unitType.movement c2 + ps2.length ≤
      phi g self.unitType.movement c + ps.length := by
  rcases h with ⟨rfl, rfl⟩ | ⟨q, v, -, -, hpass, -, hvB, hold, rfl, rfl⟩
  · exact le_refl _
  · have hdisj : (c q = none ∧ v ≤ self.unitType.movement) ∨
        ∃ old, c q = some old ∧ v < old := by
      rcases hold with hn | ho
      · exact Or.inl ⟨hn, hvB⟩
      · exact Or.inr ho
    have hlt := @phi_update_lt g self.unitType.movement c q v hpass.1 hpass.2.1 hdisj
    simp only [List.length_append, List.length_singleton]
    omega

theorem relax_one_phi {self : Unit} {g : Grid} {p : Nat × Nat} {cost : Nat}
    {costs c2 : CostMap} {ps : List ((Nat × Nat) × Nat)}
    (h : relax_one self g p cost costs = some (c2, ps)) :
    phi g self.unitType.movement c2 + ps.length ≤ phi g self.unitType.movement costs := by
  unfold relax_one at h
  obtain ⟨a1, h1, h⟩ := Option.bind_eq_some.mp h
  obtain ⟨a2, h2, h⟩ := Option.bind_eq_some.mp h
  obtain ⟨a3, h3, h4⟩ := Option.bind_eq_some.mp h
  have p1 := dir_outcome_phi (relax_dir_spec h1).1
  have p2 := dir_outcome_phi (relax_dir_spec h2).1
  have p3 := dir_outcome_phi (relax_dir_spec h3).1
  have p4 : phi g self.unitType.movement c2 + ps.length ≤
      phi g self.unitType.movement a3.1 + a3.2.length :=
    dir_outcome_phi (relax_dir_spec h4).1
  simp only [List.length_nil] at p1
  omega

theorem Grid.tile_isSome {g : Grid} (hwf : g.WF) (p : Nat × Nat)
    (h1 : p.1 < g.size.1) (h2 : p.2 < g.size.2) :
    ∃ mu t, g.tile p = some (mu, t) := by
  unfold Grid.tile Grid.index
  rw [if_pos ⟨h1, h2⟩]
  have hi : p.2 * g.size.1 + p.1 < g.size.1 * g.size.2 := by
    calc p.2 * g.size.1 + p.1 < p.2 * g.size.1 + g.size.1 := by omega
    _ = (p.2 + 1) * g.size.1 := by ring
    _ ≤ g.size.2 * g.size.1 := Nat.mul_le_mul_right _ (by omega)
    _ = g.size.1 * g.size.2 := Nat.mul_comm _ _
  have hu : p.2 * g.size.1 + p.1 < g.units.length := by rw [hwf.1]; exact hi
  have ht : p.2 * g.size.1 + p.1 < g.terrain.length := by rw [hwf.2]; exact hi
  simp only [Option.some_bind]
  rw [List.get?_eq_get hu, List.get?_eq_get ht]
  exact ⟨_, _, rfl⟩

/-- On a well-formed grid the bounds check shields the `tile` call, so a
direction step never panics. -/
theorem relax_dir_some {self : Unit} {g : Grid} (hwf : g.WF) (p : Nat × Nat)
    (cost : Nat) (c : CostMap) (ps : List ((Nat × Nat) × Nat)) (d : Int × Int) :
    ∃ acc2, relax_dir self g p cost c ps d = some acc2 := by
  simp only [relax_dir]
  split
  · exact ⟨_, rfl⟩
  next hguard =>
    push_neg at hguard
    obtain ⟨mu, t, htile⟩ := Grid.tile_isSome hwf
      (((p.1 : Int) + d.1).toNat, ((p.2 : Int) + d.2).toNat) (by omega) (by omega)
    split
    next heq => rw [htile] at heq; exact Option.noConfusion heq
    next mu2 t2 heq =>
      split
      · exact ⟨_, rfl⟩
      · split
        · exact ⟨_, rfl⟩
        · split
          · exact ⟨_, rfl⟩
          next old =>
            split
            · exact ⟨_, rfl⟩
            · exact ⟨_, rfl⟩

theorem relax_one_some {self : Unit} {g : Grid} (hwf : g.WF) (p : Nat × Nat)
    (cost : Nat) (costs : CostMap) : ∃ r, relax_one self g p cost costs = some r := by
  obtain ⟨a1, h1⟩ := @relax_dir_some self g hwf p cost costs [] (1, 0)
  obtain ⟨a2, h2⟩ := @relax_dir_some self g hwf p cost a1.1 a1.2 (0, 1)
  obtain ⟨a3, h3⟩ := @relax_dir_some self g hwf p cost a2.1 a2.2 (-1, 0)
  obtain ⟨a4, h4⟩ := @relax_dir_some self g hwf p cost a3.1 a3.2 (0, -1)
  refine ⟨a4, ?_⟩
  unfold relax_one
  exact Option.bind_eq_some.mpr ⟨a1, h1, Option.bind_eq_some.mpr ⟨a2, h2,
    Option.bind_eq_some.mpr ⟨a3, h3, h4⟩⟩⟩

theorem pf_go_nil {self : Unit} {g : Grid} {fuel : Nat} {costs : CostMap} :
    path_finder_go self g fuel [] costs = some costs := by
  cases fuel <;> rfl

theorem pf_go_zero {self : Unit} {g : Grid} {pc : (Nat × Nat) × Nat}
    {rest : List ((Nat × Nat) × Nat)} {costs : CostMap} :
    path_finder_go self g 0 (pc :: rest) costs = none := rfl

theorem pf_go_succ {self : Unit} {g : Grid} {fuel : Nat} {pc : (Nat × Nat) × Nat}
    {rest : List ((Nat × Nat) × Nat)} {costs : CostMap} :
    path_finder_go self g (fuel + 1) (pc :: rest) costs =
      match relax_one self g pc.1 pc.2 costs with
      | none => none
      | some (costs2, pushed) =>
        path_finder_go self g fuel (pushed.reverse ++ rest) costs2 := rfl

/-- The search terminates within fuel `2 * phi + stack length`. -/
theorem pf_go_some {self : Unit} {g : Grid} (hwf : g.WF) (fuel : Nat) :
    ∀ (st : List ((Nat × Nat) × Nat)) (costs : CostMap),
    2 * phi g self.unitType.movement costs + st.length < fuel →
    ∃ m, path_finder_go self g fuel st costs = some m := by
  induction fuel with
  | zero =>
    intro st costs hlt
    omega
  | succ fuel ih =>
    intro st costs hlt
    cases st with
    | nil => exact ⟨costs, pf_go_nil⟩
    | cons pc rest =>
      obtain ⟨r, hrel⟩ := @relax_one_some self g hwf pc.1 pc.2 costs
      obtain ⟨c2, ps⟩ := r
      have hphi := relax_one_phi hrel
      obtain ⟨m, hm⟩ := ih (ps.reverse ++ rest) c2 (by
        simp only [List.length_append, List.length_reverse]
        simp only [List.length_cons] at hlt
        omega)
      refine ⟨m, ?_⟩
      rw [pf_go_succ, hrel]
      exact hm

/-- Every cost the search ever records stays within the movement budget. -/
theorem pf_go_le {self : Unit} {g : Grid} (fuel : Nat) :
    ∀ (st : List ((Nat × Nat) × Nat)) (costs m : CostMap),
    path_finder_go self g fuel st costs = some m →
    (∀ q cc, costs q = some cc → cc ≤ self.unitType.movement) →
    ∀ q cc, m q = some cc → cc ≤ self.unitType.movement := by
  induction fuel with
  | zero =>
    intro st costs m h hinv
    cases st with
    | nil => rw [pf_go_nil] at h; exact (Option.some.inj h) ▸ hinv
    | cons pc rest => rw [pf_go_zero] at h; exact Option.noConfusion h
  | succ fuel ih =>
    intro st costs m h hinv
    cases st with
    | nil => rw [pf_go_nil] at h; exact (Option.some.inj h) ▸ hinv
    | cons pc rest =>
      rw [pf_go_succ] at h
      rcases hrel : relax_one self g pc.1 pc.2 costs with _ | ⟨c2, ps⟩ <;> rw [hrel] at h
      · exact Option.noConfusion h
      · obtain ⟨hev, hch, hpush, hrelax⟩ := relax_one_spec hrel
        refine ih (ps.reverse ++ rest) c2 m h ?_
        intro q cc hq
        by_cases hcq : c2 q = costs q
        · exact hinv q cc (hcq ▸ hq)
        · obtain ⟨v, hv, hmem⟩ := hch q hcq
          rw [hq] at hv
          obtain rfl := Option.some.inj hv
          exact (hpush (q, cc) hmem).2.1

/-- When the stack empties, every popped pair has been relaxed in the final
map, and so has the origin at cost 0. -/
theorem pf_go_closure {self : Unit} {g : Grid} (pos : Nat × Nat) (fuel : Nat) :
    ∀ (st : List ((Nat × Nat) × Nat)) (costs m : CostMap),
    path_finder_go self g fuel st costs = some m →
    (∀ p c, costs p = some c → relaxed self g costs p c ∨ ∃ cp, cp ≤ c ∧ (p, cp) ∈ st) →
    (relaxed self g costs pos 0 ∨ (pos, 0) ∈ st) →
    (∀ p c, m p = some c → relaxed self g m p c) ∧ relaxed self g m pos 0 := by
  induction fuel with
  | zero =>
    intro st costs m h hinv horig
    cases st with
    | nil =>
      rw [pf_go_nil] at h
      obtain rfl := Option.some.inj h
      constructor
      · intro p c hp
        rcases hinv p c hp with hr | ⟨cp, -, hmem⟩
        · exact hr
        · exact absurd hmem (List.not_mem_nil _)
      · rcases horig with hr | hmem
        · exact hr
        · exact absurd hmem (List.not_mem_nil _)
    | cons pc rest => rw [pf_go_zero] at h; exact Option.noConfusion h
  | succ fuel ih =>
    intro st costs m h hinv horig
    cases st with
    | nil =>
      rw [pf_go_nil] at h
      obtain rfl := Option.some.inj h
      constructor
      · intro p c hp
        rcases hinv p c hp with hr | ⟨cp, -, hmem⟩
        · exact hr
        · exact absurd hmem (List.not_mem_nil _)
      · rcases horig with hr | hmem
        · exact hr
        · exact absurd hmem (List.not_mem_nil _)
    | cons pc rest =>
      rw [pf_go_succ] at h
      rcases hrel : relax_one self g pc.1 pc.2 costs with _ | ⟨c2, ps⟩ <;> rw [hrel] at h
      · exact Option.noConfusion h
      · obtain ⟨hev, hch, hpush, hrelax⟩ := relax_one_spec hrel
        refine ih (ps.reverse ++ rest) c2 m h ?_ ?_
        · intro p c hp
          by_cases hcq : c2 p = costs p
          · rcases hinv p c (hcq ▸ hp) with hr | ⟨cp, hcple, hmem⟩
            · exact Or.inl (relaxed_mono hev hr)
            · rcases List.mem_cons.mp hmem with heq | hmem
              · have h1 : p = pc.1 := by rw [← heq]
                have h2 : cp = pc.2 := by rw [← heq]
                have hrel2 := hrelax
                rw [← h1, ← h2] at hrel2
                exact Or.inl (relaxed_le_cost hcple hrel2)
              · exact Or.inr ⟨cp, hcple, List.mem_append.mpr (Or.inr hmem)⟩
          · obtain ⟨v, hv, hmem⟩ := hch p hcq
            rw [hp] at hv
            obtain rfl := Option.some.inj hv
            exact Or.inr ⟨c, le_refl c,
              List.mem_append.mpr (Or.inl (List.mem_reverse.mpr hmem))⟩
        · rcases horig with hr | hmem
          · exact Or.inl (relaxed_mono hev hr)
          · rcases List.mem_cons.mp hmem with heq | hmem
            · have h1 : pos = pc.1 := by rw [← heq]
              have h2 : (0 : Nat) = pc.2 := by rw [← heq]
              have hrel2 := hrelax
              rw [← h1, ← h2] at hrel2
              exact Or.inl hrel2
            · exact Or.inr (List.mem_append.mpr (Or.inr hmem))

/-- Every mapped cost is realized by a legal nonempty walk from the origin,
provided the budget never saturates a `u32` addition. -/
theorem pf_go_sound {self : Unit} {g : Grid} (pos : Nat × Nat)
    (hB : self.unitType.movement < u32Max) (fuel : Nat) :
    ∀ (st : List ((Nat × Nat) × Nat)) (costs m : CostMap),
    path_finder_go self g fuel st costs = some m →
    (∀ qv ∈ st, qv = (pos, 0) ∨ Reaches self g pos qv.1 qv.2) →
    (∀ q c, costs q = some c → Reaches self g pos q c) →
    ∀ q c, m q = some c → Reaches self g pos q c := by
  induction fuel with
  | zero =>
    intro st costs m h hst hmap
    cases st with
    | nil => rw [pf_go_nil] at h; exact (Option.some.inj h) ▸ hmap
    | cons pc rest => rw [pf_go_zero] at h; exact Option.noConfusion h
  | succ fuel ih =>
    intro st costs m h hst hmap
    cases st with
    | nil => rw [pf_go_nil] at h; exact (Option.some.inj h) ▸ hmap
    | cons pc rest =>
      rw [pf_go_succ] at h
      rcases hrel : relax_one self g pc.1 pc.2 costs with _ | ⟨c2, ps⟩ <;> rw [hrel] at h
      · exact Option.noConfusion h
      · obtain ⟨hev, hch, hpush, hrelax⟩ := relax_one_spec hrel
        have hpc := hst pc (List.mem_cons_self pc rest)
        have hps : ∀ qv ∈ ps, Reaches self g pos qv.1 qv.2 := by
          intro qv hqv
          obtain ⟨hval, hbud, hstep, hpass⟩ := hpush qv hqv
          have hsat : satAdd pc.2 (entry_cost self g qv.1) =
              pc.2 + entry_cost self g qv.1 :=
            satAdd_eq_add (hval ▸ hbud) hB
          rcases hpc with heq | hr
          · have e1 : pc.1 = pos := by rw [heq]
            have e2 : pc.2 = 0 := by rw [heq]
            rw [e1] at hstep
            rw [e2] at hsat hval
            have hv2 : qv.2 = entry_cost self g qv.1 := by
              rw [hval, hsat]
              omega
            rw [hv2]
            exact Reaches.single hstep hpass
          · have hv2 : qv.2 = pc.2 + entry_cost self g qv.1 := by rw [hval, hsat]
            rw [hv2]
            exact Reaches.step hr hstep hpass
        refine ih (ps.reverse ++ rest) c2 m h ?_ ?_
        · intro qv hqv
          rcases List.mem_append.mp hqv with hqv | hqv
          · exact Or.inr (hps qv (List.mem_reverse.mp hqv))
          · exact hst qv (List.mem_cons_of_mem pc hqv)
        · intro q c hq
          by_cases hcq : c2 q = costs q
          · exact hmap q c (hcq ▸ hq)
          · obtain ⟨v, hv, hmem⟩ := hch q hcq
            rw [hq] at hv
            obtain rfl := Option.some.inj hv
            exact hps (q, c) hmem

theorem phi_empty (g : Grid) (B : Nat) :
    phi g B (fun _ => none) = g.size.1 * g.size.2 * (B + 1) := by
  unfold phi
  rw [Finset.sum_const, smul_eq_mul, Finset.card_product, Finset.card_range,
    Finset.card_range]

/-- On a well-formed grid the path-finder always terminates with a map:
its fuel exceeds twice the initial potential plus the stack length. -/
theorem path_finder_total {self : Unit} {g : Grid} (hwf : g.WF) (pos : Nat × Nat) :
    ∃ m, self.path_finder pos g = some m := by
  unfold Unit.path_finder
  apply pf_go_some hwf
  rw [phi_empty]
  have h : 2 * (g.size.1 * g.size.2) * (self.unitType.movement + 1) =
      2 * (g.size.1 * g.size.2 * (self.unitType.movement + 1)) := by ring
  simp only [List.length_cons, List.length_nil]
  omega

/-- A map that has relaxed all its entries and the origin dominates every
legal walk that stays within the budget. -/
theorem reaches_complete {self : Unit} {g : Grid} {pos : Nat × Nat} {m : CostMap}
    (hclosed : ∀ p c, m p = some c → relaxed self g m p c)
    (horigin : relaxed self g m pos 0) :
    ∀ q c, Reaches self g pos q c → c ≤ self.unitType.movement →
    ∃ cq, m q = some cq ∧ cq ≤ c := by
  intro q c hr
  induction hr with
  | @single q1 hstep hpass =>
    intro hc
    have hsat : satAdd 0 (entry_cost self g q1) ≤ self.unitType.movement := by
      unfold satAdd
      omega
    obtain ⟨cq, hm, hle⟩ := horigin q1 hstep hpass hsat
    refine ⟨cq, hm, le_trans hle ?_⟩
    unfold satAdd
    omega
  | @step p1 c1 q1 hr1 hstep hpass ih =>
    intro hc
    obtain ⟨cp, hmp, hcp⟩ := ih (by omega)
    have hsat : satAdd cp (entry_cost self g q1) ≤ self.unitType.movement := by
      unfold satAdd
      omega
    obtain ⟨cq, hmq, hcq⟩ := hclosed p1 cp hmp q1 hstep hpass hsat
    refine ⟨cq, hmq, ?_⟩
    have h2 : satAdd cp (entry_cost self g q1) ≤ cp + entry_cost self g q1 := by
      unfold satAdd
      omega
    omega

/-- A 2×1 all-grass strip with no units. -/
def g21 : Grid := { size := (2, 1), units := [none, none], terrain := [.grass, .grass] }

/-- A single grass tile with no units. -/
def g11 : Grid := { size := (1, 1), units := [none], terrain := [.grass] }

/-- **C2.** For every unit, origin, and well-formed grid whose movement
budget does not reach `u32::MAX` (so `saturating_add` never saturates), the
path-finder search terminates with a cost map in which a position is mapped
at cost `c` iff `c` is realized by a nonempty sequence of four-directional
orthogonal steps from the origin that never enters a tile blocked for the
mover, `c` is within the movement budget, and `c` is minimal among the
accumulated entry costs of all such walks.  (The empty walk does not count:
the origin itself is mapped only when some nonempty legal walk returns to
it within budget — see `path_finder_origin_not_mapped`.) -/
theorem path_finder_costs_characterization (self : Unit) (g : Grid) (pos : Nat × Nat)
    (hwf : g.WF) (hB : self.unitType.movement < u32Max) :
    ∃ m, self.path_finder pos g = some m ∧
      ∀ q c, m q = some c ↔
        Reaches self g pos q c ∧ c ≤ self.unitType.movement ∧
          ∀ c2, Reaches self g pos q c2 → c ≤ c2 := by
  obtain ⟨m, hm⟩ := path_finder_total hwf pos
  refine ⟨m, hm, ?_⟩
  unfold Unit.path_finder at hm
  have hsound : ∀ q c, m q = some c → Reaches self g pos q c :=
    pf_go_sound pos hB _ _ _ m hm
      (by
        intro qv hqv
        exact Or.inl (List.mem_singleton.mp hqv))
      (by
        intro q c hq
        exact Option.noConfusion hq)
  have hle : ∀ q c, m q = some c → c ≤ self.unitType.movement :=
    pf_go_le _ _ _ m hm (by
      intro q cc hq
      exact Option.noConfusion hq)
  have hclose := pf_go_closure pos _ _ _ m hm
    (by
      intro p c hp
      exact Option.noConfusion hp)
    (Or.inr (List.mem_singleton.mpr rfl))
  have hcomp := reaches_complete hclose.1 hclose.2
  intro q c
  constructor
  · intro hq
    refine ⟨hsound q c hq, hle q c hq, ?_⟩
    intro c2 hr2
    by_cases hc2 : c2 ≤ self.unitType.movement
    · obtain ⟨cq, hmq, hcq⟩ := hcomp q c2 hr2 hc2
      rw [hq] at hmq
      have := Option.some.inj hmq
      omega
    · have := hle q c hq
      omega
  · rintro ⟨hr, hcb, hmin⟩
    obtain ⟨cq, hmq, hcq⟩ := hcomp q c hr hcb
    have hge := hmin cq (hsound q cq hmq)
    have heq : cq = c := le_antisymm hcq hge
    rw [heq] at hmq
    exact hmq

theorem path_finder_costs_characterization_witness :
    g21.WF ∧ uR.unitType.movement < u32Max ∧
      ∃ m, uR.path_finder (0, 0) g21 = some m ∧
        ∀ q c, m q = some c ↔
          Reaches uR g21 (0, 0) q c ∧ c ≤ uR.unitType.movement ∧
            ∀ c2, Reaches uR g21 (0, 0) q c2 → c ≤ c2 :=
  ⟨by decide, by decide,
    path_finder_costs_characterization uR g21 (0, 0) (by decide) (by decide)⟩

/-- The claim's "reached by a sequence of steps" fails on the empty
sequence: on a single grass tile the origin reaches itself at accumulated
cost 0 ≤ budget, yet the produced cost map has no keys at all. -/
theorem path_finder_origin_not_mapped :
    (uR.path_finder (0, 0) g11).map (fun m => (m (0, 0)).isSome) = some false := by
  rfl

/-- **C3.** For every cost map the path-finder search produces: every
mapped cost is within the movement budget, and the mapped set is closed
under one more affordable orthogonal step, with the step cost computed by
the saturating addition the code uses.  (The claim's remaining conjunct —
that the origin's cost is 0 — is false: see
`path_finder_origin_cost_not_zero`.) -/
theorem path_finder_cost_invariants {self : Unit} {g : Grid} {pos : Nat × Nat}
    {m : CostMap} (h : self.path_finder pos g = some m) :
    (∀ q c, m q = some c → c ≤ self.unitType.movement) ∧
    ∀ p c, m p = some c → ∀ q, stepOK p q → passable self g q →
      satAdd c (entry_cost self g q) ≤ self.unitType.movement →
      ∃ cq, m q = some cq ∧ cq ≤ satAdd c (entry_cost self g q) := by
  unfold Unit.path_finder at h
  constructor
  · exact pf_go_le _ _ _ m h (by
      intro q cc hq
      exact Option.noConfusion hq)
  · exact (pf_go_closure pos _ _ _ m h
      (by
        intro p c hp
        exact Option.noConfusion hp)
      (Or.inr (List.mem_singleton.mpr rfl))).1

theorem path_finder_cost_invariants_witness :
    ∃ m, uR.path_finder (0, 0) g21 = some m ∧
      (∀ q c, m q = some c → c ≤ uR.unitType.movement) ∧
      ∀ p c, m p = some c → ∀ q, stepOK p q → passable uR g21 q →
        satAdd c (entry_cost uR g21 q) ≤ uR.unitType.movement →
        ∃ cq, m q = some cq ∧ cq ≤ satAdd c (entry_cost uR g21 q) := by
  obtain ⟨m, hm⟩ := @path_finder_total uR g21 (by decide) (0, 0)
  exact ⟨m, hm, (path_finder_cost_invariants hm).1, (path_finder_cost_invariants hm).2⟩

/-- The origin's cost is not 0: the search never inserts the start tile at
cost 0, so on a single tile it is unmapped, and on a 2×1 grass strip it is
mapped at 2 — the cost of stepping out and back. -/
theorem path_finder_origin_cost_not_zero :
    (uR.path_finder (0, 0) g11).map (fun m => m (0, 0)) = some none ∧
    (uR.path_finder (0, 0) g21).map (fun m => m (0, 0)) = some (some 2) := by
  exact ⟨rfl, rfl⟩

end Protoboard